import Mathlib

/-!
Verification development for the `check-package-versions` hook
(`src/post-tool-use/check-package-versions.py`).

The Python source is shallowly embedded below.  Pure functions become Lean
functions on `String` / `List Char`; external effects (registry HTTP calls,
manifest file reads, the `claude` research subprocess, the cache file) are
modelled as explicit environment parameters and an effect trace.  Python
`re` operations are embedded as concrete scanning functions realising the
exact matching semantics of the patterns appearing in the source.
-/

set_option maxRecDepth 4000

namespace CheckPackageVersions

/-- Python whitespace class, as used by `str.split()`, `str.strip()` and the
regex class `\s` (ASCII range; the embedding works over ASCII input). -/
def isPyWs (c : Char) : Bool :=
  c == ' ' || c == '\t' || c == '\n' || c == '\r' || c == '\x0b' || c == '\x0c'

/-- Regex word class `\w` (ASCII range): letters, digits and underscore. -/
def isWordChar (c : Char) : Bool :=
  c.isAlphanum || c == '_'

/-- Python `str.strip()` on the character list: drop leading and trailing
whitespace. -/
def pyStripL (s : List Char) : List Char :=
  ((s.dropWhile isPyWs).reverse.dropWhile isPyWs).reverse

/-- Python `str.strip()` lifted to `String`. -/
def pyStrip (s : String) : String :=
  String.mk (pyStripL s.data)

/-- Python `str.startswith` via list prefixes. -/
def pyStartswith (s pre : String) : Bool :=
  pre.data.isPrefixOf s.data

/-! ## Version Extractor (`get_major_version`, source lines 86-92) -/

/-- Numeric value of a digit run, as computed by Python `int` on the matched
group (base 10, leading zeros allowed). -/
def digitsToNat (l : List Char) : Nat :=
  l.foldl (fun n c => 10 * n + (c.toNat - '0'.toNat)) 0

/-- Embedding of `re.search(r"(\d+)", s)`: the leftmost maximal run of decimal
digits, or `none` when the string has no digit. -/
def findDigitRun : List Char → Option (List Char)
  | [] => none
  | c :: cs => if c.isDigit then some (c :: cs.takeWhile Char.isDigit) else findDigitRun cs

/-- Embedding of `get_major_version`: guard for the empty (falsy) string, then
`re.search(r"(\d+)", version_str)` converted with `int`. -/
def get_major_version (version_str : String) : Option Nat :=
  if version_str.data.isEmpty then none
  else (findDigitRun version_str.data).map digitsToNat

/-! ## Data model -/

/-- Embedding of the dict built by `check_version_diff` (source lines 195-201).
Majors are `Nat` because they come from a `\d+` regex group. -/
structure VersionDiff where
  package : String
  installed_version : String
  installed_major : Nat
  latest_version : String
  latest_major : Nat
  deriving DecidableEq, Repr

/-- Embedding of the `{**diff, "research": ...}` dicts flowing into the result
composition (source lines 383, 405, 423). -/
structure ResearchResult where
  diff : VersionDiff
  research : String
  deriving DecidableEq, Repr

/-! ## Research Cache primitives (source lines 38-61) -/

/-- A Python dict of strings, as an insertion-ordered association list with
unique keys. -/
abbrev Cache := List (String × String)

/-- Dict read: first (and only) binding of the key. -/
def dictGet (d : Cache) (k : String) : Option String :=
  (d.find? (fun p => p.1 == k)).map (fun p => p.2)

/-- Dict write `d[k] = v`: update the existing binding in place, or append a
new one. -/
def dictInsert (d : Cache) (k v : String) : Cache :=
  if (d.find? (fun p => p.1 == k)).isSome then
    d.map (fun p => if p.1 == k then (k, v) else p)
  else
    d ++ [(k, v)]

/-- Embedding of `load_cache`: the cache file is modelled as
`Option Cache` content (`none` covers both a missing file and a
`json.load` failure, which the source swallows into `{}`). -/
def load_cache (file : Option Cache) : Cache :=
  file.getD []

/-- Embedding of `save_cache`: on success the file now holds exactly the
dictionary that was dumped. -/
def save_cache (cache : Cache) : Option Cache :=
  some cache

/-- Embedding of `cache_key` (source lines 59-61). -/
def cache_key (pkg : String) (old_major new_major : Nat) : String :=
  pkg ++ ":" ++ toString old_major ++ "->" ++ toString new_major

/-! ## Diff Resolver (`check_version_diff`, source lines 174-203)

The two registry clients `get_npm_latest` / `get_pypi_latest` are external
HTTP calls; they are modelled as function parameters returning
`Option String` (`none` covers timeout, network error and malformed JSON,
which the source converts to `None`). -/

/-- Embedding of `check_version_diff`.  The Python guard `if not latest`
is falsy both for `None` and for the empty string. -/
def check_version_diff (npmLatest pypiLatest : String → Option String)
    (pkg installed_version registry : String) : Option VersionDiff :=
  match get_major_version installed_version with
  | none => none
  | some installed_major =>
    match (if registry == "npm" then npmLatest pkg else pypiLatest pkg) with
    | none => none
    | some l =>
      if l == "" then none
      else
        match get_major_version l with
        | none => none
        | some latest_major =>
          if installed_major != latest_major then
            some ⟨pkg, installed_version, installed_major, l, latest_major⟩
          else none

/-! ## Research spawning (`spawn_research`, source lines 206-234)

The `claude` subprocess is external; its behaviour is modelled by an
outcome value.  `subprocess.run` without `check=True` does not raise on a
non-zero exit status, so a completed process always lands in the `ok`
case regardless of its exit code. -/

/-- Possible behaviours of the external research subprocess invocation. -/
inductive RunOutcome where
  /-- The process completed (any exit status) with this stdout text. -/
  | ok (stdout : String)
  /-- `subprocess.TimeoutExpired` was raised. -/
  | timeout
  /-- Some other exception was raised, rendered as this message. -/
  | error (msg : String)
  deriving DecidableEq, Repr

/-- Embedding of `spawn_research`, parameterised by the subprocess outcome
(the majors only enter the prompt text, which is part of what determines the
outcome supplied by the environment). -/
def spawn_research (pkg : String) (old_major new_major : Nat) (outcome : RunOutcome) : String :=
  match old_major, new_major, outcome with
  | _, _, .ok stdout => pyStrip stdout
  | _, _, .timeout => "(Research timed out for " ++ pkg ++ ")"
  | _, _, .error e => "(Research failed for " ++ pkg ++ ": " ++ e ++ ")"

/-! ## Redundant-Entry Filter (`filter_redundant_types`, source lines 237-252) -/

/-- The literal `"@types/"`. -/
def typesPat : List Char := ['@', 't', 'y', 'p', 'e', 's', '/']

/-- Python `pkg.startswith("@types/")`. -/
def isTypesName (pkg : String) : Bool :=
  typesPat.isPrefixOf pkg.data

/-- Embedding of `pkg.replace("@types/", "")`: delete every (non-overlapping,
leftmost-first) occurrence of `"@types/"`. -/
def stripTypesAll : List Char → List Char
  | '@' :: 't' :: 'y' :: 'p' :: 'e' :: 's' :: '/' :: rest => stripTypesAll rest
  | c :: cs => c :: stripTypesAll cs
  | [] => []

/-- Base name used by the filter: `pkg.replace("@types/", "")`. -/
def typesBaseName (pkg : String) : String :=
  String.mk (stripTypesAll pkg.data)

/-- The `base_packages` set comprehension (source line 239); membership in a
Python set of strings is list membership here. -/
def basePkgs (diffs : List VersionDiff) : List String :=
  (diffs.filter (fun d => !(isTypesName d.package))).map (fun d => d.package)

/-- Embedding of `filter_redundant_types`: the skip/append loop keeps a diff
unless it is an `@types/` package whose base name is among the non-shadow
packages. -/
def filter_redundant_types (diffs : List VersionDiff) : List VersionDiff :=
  diffs.filter (fun d =>
    !(isTypesName d.package && (basePkgs diffs).contains (typesBaseName d.package)))

/-! ## Command Interpreter (`parse_command_packages`, source lines 148-171)

The Python regexes are embedded as concrete scanners realising their exact
matching semantics (leftmost match, greedy quantifiers; no backtracking is
ever needed for these particular patterns because every choice point is
forced, as noted inline). -/

/-- Literal match: `dropLit lit s` returns the rest of `s` after the literal
prefix `lit`, or `none`. -/
def dropLit : List Char → List Char → Option (List Char)
  | [], s => some s
  | _ :: _, [] => none
  | c :: cs, x :: xs => if c == x then dropLit cs xs else none

/-- Regex alternation of literals followed only by `\s*` (which cannot fail):
the first alternative that matches wins, as in Python. -/
def tryAlts : List (List Char) → List Char → Option (List Char)
  | [], _ => none
  | a :: as, s =>
    match dropLit a s with
    | some r => some r
    | none => tryAlts as s

/-- Embedding of `re.sub(patterns[manager], "", command)` for the anchored
prefix patterns of `parse_command_packages` (e.g. `^npm\s+(install|i|add)\s*`).
A missing manager key yields the empty pattern, whose substitution leaves the
text unchanged. -/
def stripSubcommand (manager : String) (command : List Char) : List Char :=
  let strip : List Char → List (List Char) → List Char := fun name alts =>
    match dropLit name command with
    | none => command
    | some r1 =>
      match r1 with
      | c :: _ =>
        if isPyWs c then
          match tryAlts alts (r1.dropWhile isPyWs) with
          | none => command
          | some r2 => r2.dropWhile isPyWs
        else command
      | [] => command
  if manager == "npm" then strip "npm".data ["install".data, "i".data, "add".data]
  else if manager == "yarn" then strip "yarn".data ["add".data]
  else if manager == "pnpm" then strip "pnpm".data ["add".data, "install".data]
  else if manager == "bun" then strip "bun".data ["add".data, "install".data]
  else if manager == "pip" then strip "pip".data ["install".data]
  else command

/-- The `--?` part of the flag pattern: consume the second dash only when a
word character follows (otherwise the regex backtracks to a single dash). -/
def dashTail (s2 : List Char) : List Char :=
  match s2 with
  | '-' :: e :: rest => if isWordChar e then e :: rest else s2
  | _ => s2

/-- The optional `(\s+\S+)?` group, applied greedily after the `\w+` run:
when whitespace followed by at least one non-space character is present it is
consumed, otherwise nothing is. -/
def argTail (s4 : List Char) : List Char :=
  match s4 with
  | d :: _ =>
    if isPyWs d then
      let s5 := s4.dropWhile isPyWs
      let arg := s5.takeWhile (fun x => !isPyWs x)
      if arg.isEmpty then s4 else s5.drop arg.length
    else s4
  | [] => s4

/-- Suffix remaining after matching `--?\w+(\s+\S+)?` at the head of `s`,
or `none` when it does not match there. -/
def flagTail : List Char → Option (List Char)
  | [] => none
  | c :: s2 =>
    if c == '-' then
      let s3 := dashTail s2
      let w := s3.takeWhile isWordChar
      if w.isEmpty then none
      else some (argTail (s3.drop w.length))
    else none

/-- Suffix remaining after a match of `\s+--?\w+(\s+\S+)?` starting at the
head of the string, or `none`. -/
def matchFlagAt : List Char → Option (List Char)
  | [] => none
  | c :: cs => if isPyWs c then flagTail (cs.dropWhile isPyWs) else none

/-- Fuel-indexed worker for the flag substitution scan of
`re.sub(r"\s+--?\w+(\s+\S+)?", " ", cmd)`: at each position, replace a match
with one space and resume after it, otherwise copy the character.  Fuel is
only a structural-recursion device; `flagSub` supplies enough. -/
def flagSubF : Nat → List Char → List Char
  | _, [] => []
  | 0, s => s
  | f + 1, c :: cs =>
    match matchFlagAt (c :: cs) with
    | some rest => ' ' :: flagSubF f rest
    | none => c :: flagSubF f cs

/-- Embedding of `re.sub(r"\s+--?\w+(\s+\S+)?", " ", cmd)`. -/
def flagSub (s : List Char) : List Char := flagSubF s.length s

/-- Fuel-indexed worker for Python `str.split()` (split on whitespace runs,
no empty tokens). -/
def pySplitF : Nat → List Char → List (List Char)
  | _, [] => []
  | 0, _ => []
  | f + 1, c :: cs =>
    if isPyWs c then pySplitF f cs
    else
      let tok := (c :: cs).takeWhile (fun x => !isPyWs x)
      tok :: pySplitF f ((c :: cs).drop tok.length)

/-- Embedding of Python `cmd.split()`. -/
def pySplit (s : List Char) : List (List Char) := pySplitF s.length s

/-- Version/tag specifier characters of `re.sub(r"[@=<>~!]+.*$", "", pkg)`. -/
def isSpecChar (c : Char) : Bool :=
  c == '@' || c == '=' || c == '<' || c == '>' || c == '~' || c == '!'

/-- Embedding of `re.sub(r"[@=<>~!]+.*$", "", pkg)` for tokens without
newlines (tokens produced by `split()` never contain whitespace): everything
from the first specifier character onward is removed. -/
def stripVersionSpec (t : List Char) : List Char :=
  t.takeWhile (fun c => !isSpecChar c)

/-- Embedding of `parse_command_packages` (source lines 148-171). -/
def parse_command_packages (command manager : String) : List String :=
  let cmd := stripSubcommand manager command.data
  let cmd := flagSub cmd
  (pySplit cmd).filterMap (fun pkg =>
    if pkg.head? == some '-' then none
    else
      let name := stripVersionSpec pkg
      if name.isEmpty then none else some (String.mk name))

/-! ## Manager detection (`PACKAGE_MANAGERS`, source lines 23-29, 286-293)

Each pattern has the form `\bNAME\s+(SUB1|SUB2|...)\b` and is applied with
`re.search`. -/

/-- Word-boundary condition on the character preceding a candidate match
position (`none` at the start of the string). -/
def boundaryOK : Option Char → Bool
  | none => true
  | some c => !isWordChar c

/-- The subcommand alternation followed by `\b`: some alternative matches
literally and is followed by a non-word character or the end. -/
def altEndsOK (alts : List (List Char)) (s : List Char) : Bool :=
  alts.any (fun a =>
    match dropLit a s with
    | some r =>
      match r.head? with
      | none => true
      | some c => !isWordChar c
    | none => false)

/-- Whether `NAME\s+(ALTS)\b` matches at the head of `s`. -/
def mgrMatchHere (name : List Char) (alts : List (List Char)) (s : List Char) : Bool :=
  match dropLit name s with
  | none => false
  | some r1 =>
    match r1 with
    | c :: _ => isPyWs c && altEndsOK alts (r1.dropWhile isPyWs)
    | [] => false

/-- Scan of `re.search`: try every position, keeping the previous character
for the `\b` test. -/
def mgrSearchGo (name : List Char) (alts : List (List Char)) :
    Option Char → List Char → Bool
  | prev, [] => boundaryOK prev && mgrMatchHere name alts []
  | prev, c :: cs =>
    (boundaryOK prev && mgrMatchHere name alts (c :: cs)) ||
      mgrSearchGo name alts (some c) cs

/-- Embedding of `re.search(pattern, command)` for one manager pattern. -/
def mgrSearch (name : List Char) (alts : List (List Char)) (command : String) : Bool :=
  mgrSearchGo name alts none command.data

/-- Embedding of the detection loop over `PACKAGE_MANAGERS` in insertion
order with first match winning (source lines 286-293). -/
def detectManager (command : String) : Option String :=
  if mgrSearch "npm".data ["install".data, "i".data, "add".data] command then some "npm"
  else if mgrSearch "yarn".data ["add".data] command then some "yarn"
  else if mgrSearch "pnpm".data ["add".data, "install".data] command then some "pnpm"
  else if mgrSearch "bun".data ["add".data, "install".data] command then some "bun"
  else if mgrSearch "pip".data ["install".data] command then some "pip"
  else none

/-! ## Working-directory prefix (source lines 272-283) -/

/-- Embedding of `re.match(r"^cd\s+([^\s&]+)\s*&&\s*", command)`: on success,
the captured path and the command remainder after the match. -/
def cdMatch (command : List Char) : Option (List Char × List Char) :=
  match dropLit "cd".data command with
  | none => none
  | some r1 =>
    match r1 with
    | c :: _ =>
      if isPyWs c then
        let r2 := r1.dropWhile isPyWs
        let path := r2.takeWhile (fun x => !isPyWs x && x != '&')
        if path.isEmpty then none
        else
          match (r2.drop path.length).dropWhile isPyWs with
          | '&' :: '&' :: r4 => some (path, r4.dropWhile isPyWs)
          | _ => none
      else none
    | [] => none

/-- POSIX `os.path.isabs`. -/
def pyIsAbs (p : String) : Bool :=
  p.data.head? == some '/'

/-- POSIX `os.path.join` for the two-argument uses in the source. -/
def pyJoin (a b : String) : String :=
  if pyIsAbs b then b
  else if a == "" || a.data.getLast? == some '/' then a ++ b
  else a ++ "/" ++ b

/-! ## The pip `-r` flag (source lines 303-311) -/

/-- Embedding of `re.search(r"-r\s+(\S+)", command)`: the captured file
token of the first match, scanning left to right. -/
def reqSearchGo : List Char → Option (List Char)
  | [] => none
  | '-' :: 'r' :: rest =>
    let attempt : Option (List Char) :=
      match rest with
      | c :: _ =>
        if isPyWs c then
          let f := (rest.dropWhile isPyWs).takeWhile (fun x => !isPyWs x)
          if f.isEmpty then none else some f
        else none
      | [] => none
    match attempt with
    | some f => some f
    | none => reqSearchGo ('r' :: rest)
  | _ :: cs => reqSearchGo cs

/-- The pip requirements-file capture, as a `String`. -/
def reqSearch (command : String) : Option String :=
  (reqSearchGo command.data).map String.mk

/-! ## The hook entry point (`main`, source lines 255-479)

The host event is modelled as `Option HookInput` (`none` is an undecodable
event, i.e. `json.JSONDecodeError`); per the host boundary of the spec the
event carries a tool-name field and a tool-input object with a command
string, with the `.get` defaults already applied.  External reads
(`os.getcwd`, `os.path.normpath`, `os.path.dirname`, the two manifest
parsers, the inline `-r` file read, the registry clients, the research
subprocess, the cache file) are supplied by an `Env`.  Progress `log`
output goes to stderr only and is not part of the result, so it is not
modelled.  Effects on the cache file and research invocations are recorded
in a `Trace`. -/

/-- The host invocation event, after JSON decoding. -/
structure HookInput where
  tool_name : String
  command : String
  deriving DecidableEq, Repr

/-- The structured document printed to stdout before `sys.exit(2)`
(source lines 469-477). -/
structure HookOutput where
  systemMessage : String
  additionalContext : String
  deriving DecidableEq, Repr

/-- How an invocation ends: `silent` is `sys.exit(0)` with nothing printed
to stdout; `context` is the printed document followed by `sys.exit(2)`. -/
inductive Outcome where
  | silent
  | context (out : HookOutput)
  deriving DecidableEq, Repr

/-- Observable external effects of one invocation: how often the cache file
was read, the successive contents written to it, and the arguments of every
research invocation dispatched. -/
structure Trace where
  cacheReads : Nat
  cacheWrites : List Cache
  researchCalls : List (String × Nat × Nat)
  deriving DecidableEq, Repr

/-- Result of one invocation: outcome plus effect trace. -/
structure RunResult where
  outcome : Outcome
  trace : Trace
  deriving DecidableEq, Repr

/-- The external world of one invocation. -/
structure Env where
  /-- `os.getcwd()`. -/
  cwd0 : String
  /-- `os.path.normpath` (library code, no claim depends on its details). -/
  normpath : String → String
  /-- `os.path.dirname` (library code). -/
  dirname : String → String
  /-- `parse_package_json(cwd)` (file read plus JSON decode; the source
  swallows every failure into a partial or empty mapping). -/
  packageJson : String → List (String × String)
  /-- `parse_requirements_txt(cwd)` (same failure containment). -/
  requirementsTxt : String → List (String × String)
  /-- The inline read of an explicit pip requirements file
  (source lines 338-348). -/
  readReqFile : String → List (String × String)
  /-- `get_npm_latest`. -/
  npmLatest : String → Option String
  /-- `get_pypi_latest`. -/
  pypiLatest : String → Option String
  /-- Behaviour of the research subprocess for given `(pkg, old, new)`. -/
  research : String → Nat → Nat → RunOutcome
  /-- Content of the cache file (`none`: missing or undecodable). -/
  cacheFile : Option Cache

/-- A run that exits silently touches neither the cache file nor the
research function. -/
def silentRun : RunResult :=
  ⟨.silent, ⟨0, [], []⟩⟩

/-- Embedding of the cached/uncached split (source lines 376-385),
preserving diff order in both parts. -/
def splitCached (cache : Cache) : List VersionDiff → List ResearchResult × List VersionDiff
  | [] => ([], [])
  | d :: rest =>
    let step := splitCached cache rest
    match dictGet cache (cache_key d.package d.installed_major d.latest_major) with
    | some t => (⟨d, t⟩ :: step.1, step.2)
    | none => (step.1, d :: step.2)

/-- Embedding of `research_worker` (source lines 398-405). -/
def research_worker (research : String → Nat → Nat → RunOutcome) (d : VersionDiff) :
    ResearchResult :=
  ⟨d, spawn_research d.package d.installed_major d.latest_major
    (research d.package d.installed_major d.latest_major)⟩

/-- Cache update applied to one completed result (source lines 414-420):
store it under its key unless the text is a parenthesized failure marker. -/
def cacheAfterResult (cache : Cache) (r : ResearchResult) : Cache :=
  if pyStartswith r.research "(" then cache
  else dictInsert cache (cache_key r.diff.package r.diff.installed_major r.diff.latest_major)
    r.research

/-- Embedding of the dispatch loop (source lines 407-426) in submission
order.  `as_completed` yields futures in an arbitrary completion order; the
deterministic embedding fixes submission order (the claims settled against
`main` do not depend on the interleaving, and the pool semantics itself is
modelled separately by `PoolStep`).  The `except` arm of the loop is dead
code here because `research_worker` is total. -/
def dispatchUncached (research : String → Nat → Nat → RunOutcome) :
    Cache → List VersionDiff → List ResearchResult × Cache
  | cache, [] => ([], cache)
  | cache, d :: rest =>
    let r := research_worker research d
    let step := dispatchUncached research (cacheAfterResult cache r) rest
    (r :: step.1, step.2)

/-- One row of the summary table (source lines 433-437; decorative glyphs
rendered in ASCII). -/
def tableRow (r : ResearchResult) : String :=
  "| " ++ r.diff.package ++ " | " ++ toString r.diff.installed_major ++ " | " ++
    toString r.diff.latest_major ++ " | Breaking changes |"

/-- One detail section (source lines 444-450). -/
def sectionFor (r : ResearchResult) : String :=
  "\n### " ++ r.diff.package ++ ": " ++ toString r.diff.installed_major ++ " -> " ++
    toString r.diff.latest_major ++ "\n\n" ++ r.research ++ "\n"

/-- Embedding of the result composition (source lines 432-475). -/
def composeOutput (nPkgs : Nat) (cached_results research_results : List ResearchResult) :
    HookOutput :=
  let table_rows := research_results.map tableRow
  let summary_table := "| Package | Installed | Latest | Status |\n" ++
    "|---------|-----------|--------|--------|\n" ++ String.intercalate "\n" table_rows
  let sections := research_results.map sectionFor
  let context := "## Package Version Check\n\n" ++ summary_table ++ "\n\n---\n" ++
    String.join sections ++ "\n"
  let cached_count := (research_results.filter (fun r => decide (r ∈ cached_results))).length
  let researched_count := research_results.length - cached_count
  let summary :=
    if researched_count > 0 then
      s!"Checked {nPkgs} packages, {research_results.length} major version diffs " ++
        s!"(researched {researched_count}, cached {cached_count})"
    else
      s!"Checked {nPkgs} packages, {research_results.length} major version diffs (all cached)"
  ⟨summary, context⟩

/-- The cache-touching tail of `main` (source lines 372-479): load the
cache, split, dispatch the uncached diffs, save the cache if any were
dispatched, and compose the output document. -/
def cacheStage (env : Env) (nPkgs : Nat) (diffs : List VersionDiff) : RunResult :=
  let cache0 := load_cache env.cacheFile
  let split := splitCached cache0 diffs
  let disp := dispatchUncached env.research cache0 split.2
  { outcome := .context (composeOutput nPkgs split.1 (split.1 ++ disp.1))
    trace :=
      { cacheReads := 1
        cacheWrites := if split.2.isEmpty then [] else [disp.2]
        researchCalls := split.2.map (fun d => (d.package, d.installed_major, d.latest_major)) } }

/-- Diff-level tail of `main` (source lines 356-370): exit silently when no
diff was found, otherwise filter redundant `@types/` entries and continue. -/
def mainDiffs (env : Env) (nPkgs : Nat) (diffs0 : List VersionDiff) : RunResult :=
  if diffs0.isEmpty then silentRun
  else cacheStage env nPkgs (filter_redundant_types diffs0)

/-- Registry-kind selection (source line 298). -/
def registryOf (mgr : String) : String :=
  if mgr == "npm" || mgr == "yarn" || mgr == "pnpm" || mgr == "bun" then "npm" else "pypi"

/-- The resolved pip requirements file, when the manager is pip and a
`-r` flag is present (source lines 303-311). -/
def pipReqOf (mgr cwd command : String) : Option String :=
  if mgr == "pip" then
    (reqSearch command).map (fun f => if pyIsAbs f then f else pyJoin cwd f)
  else none

/-- The `packages_to_check` dict (source lines 300-348): explicit command
packages restricted to the installed manifest when present, otherwise the
whole manifest (or the named pip requirements file). -/
def collectPackages (env : Env) (mgr cwd command : String) : List (String × String) :=
  let registry := registryOf mgr
  let pipReq := pipReqOf mgr cwd command
  let explicit := if pipReq.isSome then [] else parse_command_packages command mgr
  if !explicit.isEmpty then
    let installed := if registry == "npm" then env.packageJson cwd else env.requirementsTxt cwd
    explicit.foldl (fun acc pkg =>
      match dictGet installed pkg with
      | some v => dictInsert acc pkg v
      | none => acc) []
  else
    if registry == "npm" then env.packageJson cwd
    else
      let req_file := pipReq.getD (pyJoin cwd "requirements.txt")
      let viaDir := env.requirementsTxt (env.dirname req_file)
      match pipReq with
      | some f => env.readReqFile f
      | none => viaDir

/-- Package-collection stage of `main` (source lines 297-361), after a
manager was detected. -/
def mainDetected (env : Env) (mgr cwd command : String) : RunResult :=
  let packages_to_check := collectPackages env mgr cwd command
  if packages_to_check.isEmpty then silentRun
  else
    mainDiffs env packages_to_check.length
      (packages_to_check.filterMap (fun pv =>
        check_version_diff env.npmLatest env.pypiLatest pv.1 pv.2 (registryOf mgr)))

/-- Working-directory resolution and manager detection (source lines
269-295). -/
def mainBash (env : Env) (command0 : String) : RunResult :=
  let resolved :=
    match cdMatch command0.data with
    | some (path, rest) =>
      let p := String.mk path
      let c := if pyIsAbs p then p else pyJoin env.cwd0 p
      (env.normpath c, String.mk rest)
    | none => (env.cwd0, command0)
  match detectManager resolved.2 with
  | none => silentRun
  | some mgr => mainDetected env mgr resolved.1 resolved.2

/-- Embedding of `main` (source lines 255-479). -/
def main (env : Env) (input : Option HookInput) : RunResult :=
  match input with
  | none => silentRun
  | some h => if h.tool_name != "Bash" then silentRun else mainBash env h.command

/-! ## Research Dispatcher pool semantics (source lines 407-426)

`ThreadPoolExecutor(max_workers=10)` with one submitted task per uncached
diff.  The pool is modelled by a small-step transition system following the
documented executor semantics: a pending task may start only while fewer
than `MAX_WORKERS` tasks are running, and a running task finishes with its
own result, independently of every sibling (a task's timeout or failure is
absorbed inside `research_worker` / `spawn_research`, so finishing never
touches other tasks — there is no cross-task cancellation). -/

/-- The pool bound passed to `ThreadPoolExecutor` (source line 408). -/
def MAX_WORKERS : Nat := 10

/-- State of the executor: submitted-but-not-started tasks, running tasks,
and completed results. -/
structure PoolState where
  pending : List VersionDiff
  running : List VersionDiff
  done : List ResearchResult
  deriving DecidableEq, Repr

/-- Initial pool state: all tasks submitted, none started. -/
def poolInit (uncached : List VersionDiff) : PoolState :=
  ⟨uncached, [], []⟩

/-- One scheduler step of the bounded pool. -/
inductive PoolStep (research : String → Nat → Nat → RunOutcome) :
    PoolState → PoolState → Prop
  /-- A pending task starts while a worker is free. -/
  | start (d : VersionDiff) (rest running : List VersionDiff) (done : List ResearchResult) :
      running.length < MAX_WORKERS →
      PoolStep research ⟨d :: rest, running, done⟩ ⟨rest, d :: running, done⟩
  /-- A running task completes with its own result; siblings are untouched. -/
  | finish (pending : List VersionDiff) (r1 r2 : List VersionDiff) (d : VersionDiff)
      (done : List ResearchResult) :
      PoolStep research ⟨pending, r1 ++ d :: r2, done⟩
        ⟨pending, r1 ++ r2, research_worker research d :: done⟩

/-- Reachability under pool steps. -/
def PoolReach (research : String → Nat → Nat → RunOutcome) : PoolState → PoolState → Prop :=
  Relation.ReflTransGen (PoolStep research)

/-- Environment for the C4 witness: every external call absent. -/
def envC4 : Env :=
  { cwd0 := "/w", normpath := fun p => p, dirname := fun p => p,
    packageJson := fun _ => [], requirementsTxt := fun _ => [], readReqFile := fun _ => [],
    npmLatest := fun _ => none, pypiLatest := fun _ => none,
    research := fun _ _ _ => .timeout, cacheFile := none }

/-- Environment for the C5 witness: the cache file already holds the key of
the one diff the run produces. -/
def envC5 : Env :=
  { cwd0 := "/w", normpath := fun p => p, dirname := fun p => p,
    packageJson := fun _ => [("lodash", "^1.0.0")], requirementsTxt := fun _ => [],
    readReqFile := fun _ => [], npmLatest := fun _ => some "2.0.0",
    pypiLatest := fun _ => none, research := fun _ _ _ => .timeout,
    cacheFile := some [("lodash:1->2", "CACHED-TEXT")] }

/-- Environment for the C8 counterexample: no cache file, one diff, research
times out. -/
def envC8 : Env :=
  { cwd0 := "/w", normpath := fun p => p, dirname := fun p => p,
    packageJson := fun _ => [("lodash", "^1.0.0")], requirementsTxt := fun _ => [],
    readReqFile := fun _ => [], npmLatest := fun _ => some "2.0.0",
    pypiLatest := fun _ => none, research := fun _ _ _ => .timeout,
    cacheFile := none }

/-! ## Explicit-package extraction: claim-side pipeline (C7)

The claim describes `parse_command_packages` as: strip the manager prefix,
strip each recognized flag token together with at most one following bare
argument, tokenize on whitespace, discard tokens still starting with a flag
marker, and strip each remaining token's trailing version/tag specifier
(`@ = < > ~ !`) to obtain its bare package name (an empty residue names no
package).  Because a flag may take zero or one argument, the claim denotes a
set of admissible outputs; `specOutcomes` computes that set over the
whitespace token list of the command remainder. -/

/-- Modelled from the claim wording: the bare package name of a token —
everything before its trailing version/tag specifier. -/
def specBareName (t : List Char) : List Char :=
  t.takeWhile (fun c => !isSpecChar c)

/-- Modelled from the claim wording: all outputs obtainable by stripping
each flag token (a token starting with the flag marker `-`) together with at
most one following bare (non-flag) argument, discarding flag-marker tokens,
and keeping the nonempty bare names of the remaining tokens in order. -/
def specOutcomes : List (List Char) → List (List (List Char))
  | [] => [[]]
  | [t] =>
    if t.head? == some '-' then [[]]
    else [[]].map (fun out =>
      if (specBareName t).isEmpty then out else specBareName t :: out)
  | t :: a :: rest2 =>
    if t.head? == some '-' then
      specOutcomes (a :: rest2) ++
        (if a.head? == some '-' then [] else specOutcomes rest2)
    else
      (specOutcomes (a :: rest2)).map (fun out =>
        if (specBareName t).isEmpty then out else specBareName t :: out)

/-! ## Well-formed commands for the amended C7

A flag token is well formed when it is a dash or a double dash followed only
of word characters (so the regex `--?\w+` consumes it exactly).  A token is
well formed when it is nonempty, whitespace-free, and — if it starts with
the flag marker — a well-formed flag. -/

/-- A flag token exactly matched by `--?\w+`. -/
def wfFlagTok (t : List Char) : Bool :=
  match t with
  | '-' :: rest =>
    (if rest.head? == some '-' then rest.tail else rest) != [] &&
      (if rest.head? == some '-' then rest.tail else rest).all isWordChar
  | _ => false

/-- A well-formed whitespace-delimited token. -/
def wfTok (t : List Char) : Bool :=
  !t.isEmpty && t.all (fun c => !isPyWs c) &&
    (t.head? != some '-' || wfFlagTok t)

/-- The command remainder after the first token: a space before each
subsequent token. -/
def gapSp : List (List Char) → List Char
  | [] => []
  | t :: rest => ' ' :: (t ++ gapSp rest)

/-- Tokens joined by single spaces. -/
def intercalSp : List (List Char) → List Char
  | [] => []
  | t :: rest => t ++ gapSp rest

/-- Token-level model of the flag substitution on a well-formed gap
position: a flag token is deleted together with the following token (the
greedy `(\s+\S+)?` group) when one exists. -/
def stripFlagsTok : List (List Char) → List (List Char)
  | [] => []
  | [t] => if t.head? == some '-' then [] else [t]
  | t :: g :: rest2 =>
    if t.head? == some '-' then stripFlagsTok rest2
    else t :: stripFlagsTok (g :: rest2)

/-- Token-level model of the flag substitution on the whole remainder: the
head token is never deleted (a match needs leading whitespace), the rest are
gap positions. -/
def codeTokensModel : List (List Char) → List (List Char)
  | [] => []
  | t :: rest => t :: stripFlagsTok rest

/-- The token filter of `parse_command_packages` (source lines 163-171)
at the character-list level. -/
def finalFilter (toks : List (List Char)) : List (List Char) :=
  toks.filterMap (fun pkg =>
    if pkg.head? == some '-' then none
    else
      if (stripVersionSpec pkg).isEmpty then none else some (stripVersionSpec pkg))

/-! ## Theorems -/

theorem dashTail_length_le (s2 : List Char) : (dashTail s2).length ≤ s2.length := by
  unfold dashTail
  split
  · split <;> simp
  · exact Nat.le_refl _

theorem dropWhile_length_le (p : Char → Bool) :
    ∀ l : List Char, (l.dropWhile p).length ≤ l.length := by
  intro l
  induction l with
  | nil => simp
  | cons c cs ih =>
    rw [List.dropWhile_cons]
    split
    · simp only [List.length_cons]
      omega
    · exact Nat.le_refl _

theorem argTail_length_le (s4 : List Char) : (argTail s4).length ≤ s4.length := by
  unfold argTail
  split
  · rename_i d rest
    by_cases hd : isPyWs d
    · simp only [hd, if_true]
      have h1 : ((d :: rest).dropWhile isPyWs).length ≤ (d :: rest).length :=
        dropWhile_length_le _ _
      split
      · exact Nat.le_refl _
      · have h2 := List.length_drop
          ((((d :: rest).dropWhile isPyWs).takeWhile (fun x => !isPyWs x)).length)
          ((d :: rest).dropWhile isPyWs)
        omega
    · simp [hd]
  · exact Nat.le_refl _

theorem flagTail_length_lt {s r : List Char} (h : flagTail s = some r) :
    r.length < s.length := by
  match s with
  | [] => simp [flagTail] at h
  | c :: s2 =>
    simp only [flagTail] at h
    by_cases hc : c == '-'
    · simp only [hc, if_true] at h
      have h3 : (dashTail s2).length ≤ s2.length := dashTail_length_le s2
      split at h
      · simp at h
      · have h4 := argTail_length_le
          ((dashTail s2).drop (((dashTail s2).takeWhile isWordChar).length))
        have h5 := List.length_drop (((dashTail s2).takeWhile isWordChar).length) (dashTail s2)
        cases h
        simp only [List.length_cons]
        omega
    · simp [hc] at h

theorem matchFlagAt_length_lt {s r : List Char} (h : matchFlagAt s = some r) :
    r.length < s.length := by
  match s with
  | [] => simp [matchFlagAt] at h
  | c :: cs =>
    simp only [matchFlagAt] at h
    split at h
    · have h1 := flagTail_length_lt h
      have h2 : (cs.dropWhile isPyWs).length ≤ cs.length := dropWhile_length_le _ _
      simp only [List.length_cons]
      omega
    · simp at h

theorem flagSubF_irrel : ∀ (f1 f2 : Nat) (s : List Char),
    s.length ≤ f1 → s.length ≤ f2 → flagSubF f1 s = flagSubF f2 s := by
  intro f1
  induction f1 with
  | zero =>
    intro f2 s h1 _
    have : s = [] := List.eq_nil_of_length_eq_zero (Nat.le_zero.mp h1)
    subst this
    cases f2 <;> rfl
  | succ g ih =>
    intro f2 s h1 h2
    match s with
    | [] => cases f2 <;> rfl
    | c :: cs =>
      match f2 with
      | 0 => simp at h2
      | h + 1 =>
        simp only [flagSubF]
        match hm : matchFlagAt (c :: cs) with
        | some rest =>
          have hr := matchFlagAt_length_lt hm
          simp only [List.length_cons] at h1 h2 hr
          show ' ' :: flagSubF g rest = ' ' :: flagSubF h rest
          rw [ih h rest (by omega) (by omega)]
        | none =>
          simp only [List.length_cons] at h1 h2
          show c :: flagSubF g cs = c :: flagSubF h cs
          rw [ih h cs (by omega) (by omega)]

theorem flagSub_nil : flagSub [] = [] := rfl

theorem flagSub_cons_match {c : Char} {cs rest : List Char}
    (h : matchFlagAt (c :: cs) = some rest) :
    flagSub (c :: cs) = ' ' :: flagSub rest := by
  have hr := matchFlagAt_length_lt h
  simp only [List.length_cons] at hr
  unfold flagSub
  simp only [List.length_cons, flagSubF, h]
  rw [flagSubF_irrel cs.length rest.length rest (by omega) (by omega)]

theorem flagSub_cons_nomatch {c : Char} {cs : List Char}
    (h : matchFlagAt (c :: cs) = none) :
    flagSub (c :: cs) = c :: flagSub cs := by
  unfold flagSub
  simp only [List.length_cons, flagSubF, h]

theorem pySplitF_irrel : ∀ (f1 f2 : Nat) (s : List Char),
    s.length ≤ f1 → s.length ≤ f2 → pySplitF f1 s = pySplitF f2 s := by
  intro f1
  induction f1 with
  | zero =>
    intro f2 s h1 _
    have : s = [] := List.eq_nil_of_length_eq_zero (Nat.le_zero.mp h1)
    subst this
    cases f2 <;> rfl
  | succ g ih =>
    intro f2 s h1 h2
    match s with
    | [] => cases f2 <;> rfl
    | c :: cs =>
      match f2 with
      | 0 => simp at h2
      | h + 1 =>
        simp only [pySplitF]
        by_cases hws : isPyWs c
        · simp only [hws, if_true]
          simp only [List.length_cons] at h1 h2
          exact ih h cs (by omega) (by omega)
        · simp only [hws, if_false, Bool.false_eq_true]
          have hd : (((c :: cs).drop
              (((c :: cs).takeWhile (fun x => !isPyWs x)).length)).length ≤ cs.length) := by
            have ht : ((c :: cs).takeWhile (fun x => !isPyWs x)).length ≥ 1 := by
              simp only [List.takeWhile_cons, hws]
              simp
            rw [List.length_drop]
            simp only [List.length_cons]
            omega
          simp only [List.length_cons] at h1 h2
          rw [ih h _ (by omega) (by omega)]

theorem pySplit_nil : pySplit [] = [] := rfl

theorem pySplit_cons_ws {c : Char} {cs : List Char} (h : isPyWs c = true) :
    pySplit (c :: cs) = pySplit cs := by
  unfold pySplit
  simp only [List.length_cons, pySplitF, h, if_true]

theorem pySplit_cons_tok {c : Char} {cs : List Char} (h : isPyWs c = false) :
    pySplit (c :: cs) = (c :: cs).takeWhile (fun x => !isPyWs x) ::
      pySplit ((c :: cs).drop (((c :: cs).takeWhile (fun x => !isPyWs x)).length)) := by
  unfold pySplit
  simp only [List.length_cons, pySplitF, h, if_false, Bool.false_eq_true]
  have ht : ((c :: cs).takeWhile (fun x => !isPyWs x)).length ≥ 1 := by
    simp only [List.takeWhile_cons, h]
    simp
  have hd : (((c :: cs).drop
      (((c :: cs).takeWhile (fun x => !isPyWs x)).length)).length ≤ cs.length) := by
    rw [List.length_drop]
    simp only [List.length_cons]
    omega
  rw [pySplitF_irrel cs.length
    ((c :: cs).drop (((c :: cs).takeWhile (fun x => !isPyWs x)).length)).length
    ((c :: cs).drop (((c :: cs).takeWhile (fun x => !isPyWs x)).length))
    (by omega) (Nat.le_refl _)]

/-! ## Generic helper lemmas -/

theorem takeWhile_append_all {p : Char → Bool} {a : List Char} (b : List Char)
    (h : ∀ c ∈ a, p c = true) : (a ++ b).takeWhile p = a ++ b.takeWhile p := by
  induction a with
  | nil => simp
  | cons c cs ih =>
    simp only [List.cons_append, List.takeWhile_cons, h c (List.mem_cons_self c cs), if_true]
    rw [ih (fun x hx => h x (List.mem_cons_of_mem c hx))]

theorem takeWhile_head_false {p : Char → Bool} {b : List Char}
    (h : ∀ c ∈ b.head?, p c = false) : b.takeWhile p = [] := by
  cases b with
  | nil => rfl
  | cons c cs => simp [List.takeWhile_cons, h c rfl]

/-! ## Version Extractor lemmas -/

theorem findDigitRun_append_nodigit {a : List Char} (b : List Char)
    (ha : ∀ c ∈ a, c.isDigit = false) : findDigitRun (a ++ b) = findDigitRun b := by
  induction a with
  | nil => rfl
  | cons c cs ih =>
    simp only [List.cons_append, findDigitRun, ha c (List.mem_cons_self c cs)]
    simp only [Bool.false_eq_true, if_false]
    exact ih (fun x hx => ha x (List.mem_cons_of_mem c hx))

theorem findDigitRun_run {r b : List Char} (hne : r ≠ [])
    (hr : ∀ c ∈ r, c.isDigit = true) (hb : ∀ c ∈ b.head?, c.isDigit = false) :
    findDigitRun (r ++ b) = some r := by
  cases r with
  | nil => exact absurd rfl hne
  | cons d ds =>
    simp only [List.cons_append, findDigitRun, hr d (List.mem_cons_self d ds), if_true]
    simp only [List.append_eq]
    rw [takeWhile_append_all b (fun x hx => hr x (List.mem_cons_of_mem d hx))]
    rw [takeWhile_head_false hb]
    simp

/-- C2: the Version Extractor returns the integer value of the first maximal
digit run found anywhere in the string (constraint prefixes are skipped),
and absent when the string has no digit (including the empty string, which
has none). -/
theorem claim_c2_version_extractor :
    (∀ s : String, (∀ c ∈ s.data, c.isDigit = false) → get_major_version s = none) ∧
    (∀ a r b : List Char, (∀ c ∈ a, c.isDigit = false) → r ≠ [] →
      (∀ c ∈ r, c.isDigit = true) → (∀ c ∈ b.head?, c.isDigit = false) →
      get_major_version (String.mk (a ++ r ++ b)) = some (digitsToNat r)) := by
  constructor
  · intro s hs
    unfold get_major_version
    by_cases he : s.data.isEmpty
    · simp [he]
    · simp only [he, Bool.false_eq_true, if_false]
      have h0 : findDigitRun (s.data ++ []) = findDigitRun [] := findDigitRun_append_nodigit [] hs
      rw [List.append_nil] at h0
      rw [h0]
      rfl
  · intro a r b ha hne hr hb
    unfold get_major_version
    have hdata : (String.mk (a ++ r ++ b)).data = a ++ r ++ b := rfl
    rw [hdata]
    have h0 : (a ++ r ++ b).isEmpty = false := by
      cases r with
      | nil => exact absurd rfl hne
      | cons d ds => simp [List.isEmpty_eq_false_iff_exists_mem]
    rw [h0]
    simp only [Bool.false_eq_true, if_false]
    rw [List.append_assoc, findDigitRun_append_nodigit (r ++ b) ha,
      findDigitRun_run hne hr hb]
    rfl

/-- C2 witness: a concrete constraint string and a concrete digit-free
string. -/
theorem claim_c2_witness :
    get_major_version "^14.0.0" = some 14 ∧ get_major_version "abc" = none := by
  constructor
  · have h := claim_c2_version_extractor.2 ['^'] ['1', '4'] ['.', '0', '.', '0']
      (by decide) (by decide) (by decide) (by decide)
    simp only [List.cons_append, List.nil_append] at h
    have e2 : digitsToNat ['1', '4'] = 14 := by decide
    rw [e2] at h
    exact h
  · exact claim_c2_version_extractor.1 "abc" (by decide)

/-- C1: the Diff Resolver returns nothing when the installed major is
absent, when the latest version is unavailable (no response or the falsy
empty string), when the latest major is absent, or when the majors agree;
and every diff it returns has distinct majors and copies the package,
installed version and latest version from its inputs. -/
theorem claim_c1_diff_resolver (f g : String → Option String) (pkg v reg : String) :
    (get_major_version v = none → check_version_diff f g pkg v reg = none) ∧
    ((if reg == "npm" then f pkg else g pkg) = none →
      check_version_diff f g pkg v reg = none) ∧
    ((if reg == "npm" then f pkg else g pkg) = some "" →
      check_version_diff f g pkg v reg = none) ∧
    (∀ l, (if reg == "npm" then f pkg else g pkg) = some l → get_major_version l = none →
      check_version_diff f g pkg v reg = none) ∧
    (∀ l im lm, get_major_version v = some im →
      (if reg == "npm" then f pkg else g pkg) = some l → get_major_version l = some lm →
      im = lm → check_version_diff f g pkg v reg = none) ∧
    (∀ d, check_version_diff f g pkg v reg = some d →
      d.installed_major ≠ d.latest_major ∧ d.package = pkg ∧ d.installed_version = v ∧
      (if reg == "npm" then f pkg else g pkg) = some d.latest_version ∧
      get_major_version v = some d.installed_major ∧
      get_major_version d.latest_version = some d.latest_major) := by
  refine ⟨?_, ?_, ?_, ?_, ?_, ?_⟩
  · intro h
    simp [check_version_diff, h]
  · intro h
    unfold check_version_diff
    cases hv : get_major_version v
    · rfl
    · rw [h]
  · intro h
    unfold check_version_diff
    cases hv : get_major_version v
    · rfl
    · rw [h]
      simp
  · intro l hl hmaj
    unfold check_version_diff
    cases hv : get_major_version v
    · rfl
    · rw [hl]
      by_cases he : l == ""
      · simp [he]
      · simp only [he, Bool.false_eq_true, if_false]
        rw [hmaj]
  · intro l im lm hv hl hlm heq
    unfold check_version_diff
    rw [hv, hl]
    by_cases he : l == ""
    · simp [he]
    · simp only [he, Bool.false_eq_true, if_false]
      rw [hlm]
      subst heq
      simp
  · intro d hd
    unfold check_version_diff at hd
    cases hv : get_major_version v <;> rw [hv] at hd
    · exact absurd hd (by simp)
    · rename_i im
      cases hl : (if reg == "npm" then f pkg else g pkg) <;> rw [hl] at hd
      · exact absurd hd (by simp)
      · rename_i l
        by_cases he : l == ""
        · simp [he] at hd
        · simp only [he, Bool.false_eq_true, if_false] at hd
          cases hlm : get_major_version l <;> rw [hlm] at hd
          · exact absurd hd (by simp)
          · rename_i lm
            by_cases hne : im != lm
            · simp only [hne, if_true, Option.some.injEq] at hd
              subst hd
              exact ⟨by simpa [bne_iff_ne] using hne, rfl, rfl, rfl, rfl, hlm⟩
            · simp [hne] at hd

/-- C1 witness: a resolver run that produces a diff (and one that cannot,
lacking an installed major). -/
theorem claim_c1_witness :
    check_version_diff (fun _ => some "2.0.0") (fun _ => none) "p" "^1.0.0" "npm" =
      some ⟨"p", "^1.0.0", 1, "2.0.0", 2⟩ ∧
    (1 : Nat) ≠ 2 ∧
    check_version_diff (fun _ => some "2.0.0") (fun _ => none) "p" "nodigits" "npm" = none := by
  refine ⟨by decide, ?_, ?_⟩
  · exact ((claim_c1_diff_resolver (fun _ => some "2.0.0") (fun _ => none)
      "p" "^1.0.0" "npm").2.2.2.2.2 ⟨"p", "^1.0.0", 1, "2.0.0", 2⟩ (by decide)).1
  · exact (claim_c1_diff_resolver (fun _ => some "2.0.0") (fun _ => none)
      "p" "nodigits" "npm").1 (by decide)

/-! ## Redundant-Entry Filter lemmas -/

theorem basePkgs_filter_redundant_types (l : List VersionDiff) :
    basePkgs (filter_redundant_types l) = basePkgs l := by
  unfold basePkgs filter_redundant_types
  rw [List.filter_filter]
  congr 1
  apply List.filter_congr
  intro d _
  cases h : isTypesName d.package <;> simp [h]

/-- C6: the Redundant-Entry Filter is idempotent and its output is a
subsequence of its input (so the relative order of survivors is
preserved). -/
theorem claim_c6_filter_redundant_types (diffs : List VersionDiff) :
    filter_redundant_types (filter_redundant_types diffs) = filter_redundant_types diffs ∧
    (filter_redundant_types diffs).Sublist diffs := by
  constructor
  · conv_lhs => rw [filter_redundant_types]
    rw [basePkgs_filter_redundant_types]
    conv_lhs => rw [filter_redundant_types]
    rw [List.filter_filter]
    apply List.filter_congr
    intro d _
    rw [Bool.and_self]
  · exact List.filter_sublist diffs

/-! ## Dict lemmas -/

theorem dictGet_map_update (d : Cache) (k v : String) :
    dictGet (d.map (fun p => if p.1 == k then (k, v) else p)) k =
      if (d.find? (fun p => p.1 == k)).isSome then some v else none := by
  induction d with
  | nil => rfl
  | cons p ps ih =>
    by_cases hp : (p.1 == k) = true
    · simp only [List.map_cons, hp, if_true]
      simp [dictGet, List.find?_cons_of_pos, hp]
    · simp only [List.map_cons, hp, Bool.false_eq_true, if_false]
      rw [List.find?_cons_of_neg _ (by simp [hp])]
      unfold dictGet at ih ⊢
      rw [List.find?_cons_of_neg _ (by simp [hp])]
      exact ih

theorem dictGet_append_new (d : Cache) (k v : String)
    (h : d.find? (fun p => p.1 == k) = none) :
    dictGet (d ++ [(k, v)]) k = some v := by
  induction d with
  | nil => simp [dictGet]
  | cons p ps ih =>
    have hp : ¬((fun p : String × String => p.1 == k) p) = true := by
      intro hc
      rw [@List.find?_cons_of_pos _ (fun p : String × String => p.1 == k) p ps hc] at h
      exact absurd h (by simp)
    rw [@List.find?_cons_of_neg _ (fun p : String × String => p.1 == k) p ps hp] at h
    unfold dictGet
    rw [List.cons_append,
      @List.find?_cons_of_neg _ (fun p : String × String => p.1 == k) p (ps ++ [(k, v)]) hp]
    exact ih h

theorem dictGet_dictInsert_self (d : Cache) (k v : String) :
    dictGet (dictInsert d k v) k = some v := by
  unfold dictInsert
  by_cases hf : (d.find? (fun p => p.1 == k)).isSome = true
  · simp only [hf, if_true]
    rw [dictGet_map_update, hf]
    simp
  · simp only [hf, Bool.false_eq_true, if_false]
    exact dictGet_append_new d k v (Option.not_isSome_iff_eq_none.mp (by simpa using hf))

theorem dictGet_dictInsert_ne (d : Cache) (k v k2 : String) (h : (k2 == k) = false) :
    dictGet (dictInsert d k v) k2 = dictGet d k2 := by
  have hne : k2 ≠ k := by simpa using h
  have hkv : ¬((fun q : String × String => q.1 == k2) (k, v)) = true := by
    simp only [beq_iff_eq]
    exact fun hh => hne hh.symm
  unfold dictInsert
  by_cases hf : (d.find? (fun p => p.1 == k)).isSome = true
  · simp only [hf, if_true]
    clear hf
    induction d with
    | nil => rfl
    | cons p ps ih =>
      simp only [List.map_cons]
      by_cases hp : (p.1 == k) = true
      · have hpk : p.1 = k := by simpa using hp
        have hpk2 : ¬((fun q : String × String => q.1 == k2) p) = true := by
          simp only [beq_iff_eq, hpk]
          exact fun hh => hne hh.symm
        simp only [hp, if_true]
        unfold dictGet
        rw [@List.find?_cons_of_neg _ (fun q : String × String => q.1 == k2) (k, v) _ hkv,
          @List.find?_cons_of_neg _ (fun q : String × String => q.1 == k2) p ps hpk2]
        exact ih
      · simp only [hp, Bool.false_eq_true, if_false]
        by_cases hp2 : ((fun q : String × String => q.1 == k2) p) = true
        · unfold dictGet
          rw [@List.find?_cons_of_pos _ (fun q : String × String => q.1 == k2) p _ hp2,
            @List.find?_cons_of_pos _ (fun q : String × String => q.1 == k2) p ps hp2]
        · unfold dictGet
          rw [@List.find?_cons_of_neg _ (fun q : String × String => q.1 == k2) p _ (by simpa using hp2),
            @List.find?_cons_of_neg _ (fun q : String × String => q.1 == k2) p ps (by simpa using hp2)]
          exact ih
  · simp only [hf, Bool.false_eq_true, if_false]
    clear hf
    induction d with
    | nil =>
      unfold dictGet
      simp only [List.nil_append]
      rw [@List.find?_cons_of_neg _ (fun q : String × String => q.1 == k2) (k, v) [] hkv]
    | cons p ps ih =>
      by_cases hp2 : ((fun q : String × String => q.1 == k2) p) = true
      · unfold dictGet
        rw [List.cons_append,
          @List.find?_cons_of_pos _ (fun q : String × String => q.1 == k2) p _ hp2,
          @List.find?_cons_of_pos _ (fun q : String × String => q.1 == k2) p ps hp2]
      · unfold dictGet
        rw [List.cons_append,
          @List.find?_cons_of_neg _ (fun q : String × String => q.1 == k2) p _ (by simpa using hp2),
          @List.find?_cons_of_neg _ (fun q : String × String => q.1 == k2) p ps (by simpa using hp2)]
        exact ih

/-! ## Research-failure and dispatch lemmas -/

theorem spawn_research_failure_marker (pkg : String) (a b : Nat) (out : RunOutcome)
    (h : out = .timeout ∨ ∃ e, out = .error e) :
    pyStartswith (spawn_research pkg a b out) "(" = true := by
  rcases h with h | ⟨e, h⟩ <;> subst h <;>
    simp [spawn_research, pyStartswith, String.data_append]

theorem dispatchUncached_results (research : String → Nat → Nat → RunOutcome)
    (cache : Cache) (uncached : List VersionDiff) :
    (dispatchUncached research cache uncached).1 =
      uncached.map (research_worker research) := by
  induction uncached generalizing cache with
  | nil => rfl
  | cons d rest ih =>
    show research_worker research d ::
        (dispatchUncached research (cacheAfterResult cache (research_worker research d)) rest).1 =
      research_worker research d :: rest.map (research_worker research)
    rw [ih]

theorem dispatchUncached_no_write (research : String → Nat → Nat → RunOutcome)
    (cache : Cache) (uncached : List VersionDiff) (k : String)
    (hk : dictGet cache k = none)
    (hall : ∀ d ∈ uncached,
      cache_key d.package d.installed_major d.latest_major = k →
      pyStartswith (research_worker research d).research "(" = true) :
    dictGet (dispatchUncached research cache uncached).2 k = none := by
  induction uncached generalizing cache with
  | nil => exact hk
  | cons d rest ih =>
    show dictGet (dispatchUncached research
      (cacheAfterResult cache (research_worker research d)) rest).2 k = none
    apply ih
    · unfold cacheAfterResult
      by_cases hs : pyStartswith (research_worker research d).research "(" = true
      · simpa [hs] using hk
      · simp only [hs, Bool.false_eq_true, if_false]
        by_cases hkey : cache_key d.package d.installed_major d.latest_major = k
        · exact absurd (hall d (List.mem_cons_self d rest) hkey) hs
        · rw [dictGet_dictInsert_ne _ _ _ _ (by simpa using fun hh => hkey hh.symm)]
          exact hk
    · exact fun d2 h2 => hall d2 (List.mem_cons_of_mem d h2)

theorem splitCached_uncached_mem (cache : Cache) (diffs : List VersionDiff)
    (d : VersionDiff) (hd : d ∈ diffs)
    (h : dictGet cache (cache_key d.package d.installed_major d.latest_major) = none) :
    d ∈ (splitCached cache diffs).2 := by
  induction diffs with
  | nil => simp at hd
  | cons d0 rest ih =>
    rcases List.mem_cons.mp hd with rfl | hmem
    · simp only [splitCached, h]
      exact List.mem_cons_self _ _
    · simp only [splitCached]
      cases h0 : dictGet cache (cache_key d0.package d0.installed_major d0.latest_major)
      · exact List.mem_cons_of_mem d0 (ih hmem)
      · exact ih hmem

theorem splitCached_uncached_not_hit (cache : Cache) (diffs : List VersionDiff) :
    ∀ d ∈ (splitCached cache diffs).2,
      dictGet cache (cache_key d.package d.installed_major d.latest_major) = none := by
  induction diffs with
  | nil => intro d hd; simp [splitCached] at hd
  | cons d0 rest ih =>
    intro d hd
    simp only [splitCached] at hd
    cases h0 : dictGet cache (cache_key d0.package d0.installed_major d0.latest_major) <;>
      rw [h0] at hd
    · rcases List.mem_cons.mp hd with rfl | h2
      · exact h0
      · exact ih d h2
    · exact ih d hd

/-- C10: a freshly produced research text is written to the cache exactly
when it does not start with `(`; a genuine text that starts with `(` is
treated as a failure and never cached, while the empty string — produced
when the subprocess exits nonzero without raising — is cached. -/
theorem claim_c10_cache_write_iff (cache : Cache) (r : ResearchResult) :
    (pyStartswith r.research "(" = true → cacheAfterResult cache r = cache) ∧
    (pyStartswith r.research "(" = false →
      dictGet (cacheAfterResult cache r)
        (cache_key r.diff.package r.diff.installed_major r.diff.latest_major) =
        some r.research) ∧
    (∀ pkg : String, ∀ a b : Nat,
      spawn_research pkg a b (.ok "") = "" ∧
      pyStartswith (spawn_research pkg a b (.ok "")) "(" = false) := by
  refine ⟨?_, ?_, ?_⟩
  · intro h
    simp [cacheAfterResult, h]
  · intro h
    simp [cacheAfterResult, h, dictGet_dictInsert_self]
  · intro pkg a b
    exact ⟨rfl, rfl⟩

/-- C10 witness: a parenthesized text is not cached; an empty success text
is cached under the diff key. -/
theorem claim_c10_witness :
    cacheAfterResult [] ⟨⟨"p", "1.0", 1, "2.0", 2⟩, "(note)"⟩ = [] ∧
    dictGet (cacheAfterResult [] ⟨⟨"p", "1.0", 1, "2.0", 2⟩, ""⟩) (cache_key "p" 1 2) =
      some "" ∧
    spawn_research "p" 1 2 (.ok "") = "" := by
  refine ⟨?_, ?_, ?_⟩
  · exact (claim_c10_cache_write_iff [] ⟨⟨"p", "1.0", 1, "2.0", 2⟩, "(note)"⟩).1 (by decide)
  · exact (claim_c10_cache_write_iff [] ⟨⟨"p", "1.0", 1, "2.0", 2⟩, ""⟩).2.1 (by decide)
  · exact ((claim_c10_cache_write_iff [] ⟨⟨"p", "1.0", 1, "2.0", 2⟩, ""⟩).2.2 "p" 1 2).1

/-- C3: a timed-out or failed research invocation yields a parenthesized
marker; the marker result is attached to the dispatch output but its key is
never written to the cache, so on a later invocation the same diff is again
uncached (and hence re-dispatched). -/
theorem claim_c3_failure_not_cached
    (research : String → Nat → Nat → RunOutcome) (cache : Cache)
    (uncached : List VersionDiff) (d : VersionDiff)
    (hmem : d ∈ uncached)
    (hout : research d.package d.installed_major d.latest_major = .timeout ∨
      ∃ e, research d.package d.installed_major d.latest_major = .error e)
    (hnodup : (uncached.map
      (fun x => cache_key x.package x.installed_major x.latest_major)).Nodup)
    (hmiss : dictGet cache (cache_key d.package d.installed_major d.latest_major) = none) :
    pyStartswith (research_worker research d).research "(" = true ∧
    research_worker research d ∈ (dispatchUncached research cache uncached).1 ∧
    dictGet (dispatchUncached research cache uncached).2
      (cache_key d.package d.installed_major d.latest_major) = none ∧
    (∀ diffs2 : List VersionDiff, d ∈ diffs2 →
      d ∈ (splitCached (dispatchUncached research cache uncached).2 diffs2).2) := by
  have hmark : pyStartswith (research_worker research d).research "(" = true :=
    spawn_research_failure_marker _ _ _ _ hout
  have hnw : dictGet (dispatchUncached research cache uncached).2
      (cache_key d.package d.installed_major d.latest_major) = none := by
    apply dispatchUncached_no_write research cache uncached _ hmiss
    intro d2 h2 hkey
    have hd2 : d2 = d :=
      List.inj_on_of_nodup_map hnodup h2 hmem hkey
    rw [hd2]
    exact hmark
  refine ⟨hmark, ?_, hnw, ?_⟩
  · rw [dispatchUncached_results]
    exact List.mem_map_of_mem _ hmem
  · intro diffs2 hd2
    exact splitCached_uncached_mem _ _ _ hd2 hnw

/-- C3 witness: a single uncached diff whose research times out. -/
theorem claim_c3_witness :
    pyStartswith (research_worker (fun _ _ _ => .timeout)
      ⟨"lodash", "^1.0.0", 1, "2.0.0", 2⟩).research "(" = true ∧
    dictGet (dispatchUncached (fun _ _ _ => .timeout) []
      [⟨"lodash", "^1.0.0", 1, "2.0.0", 2⟩]).2 (cache_key "lodash" 1 2) = none ∧
    (⟨"lodash", "^1.0.0", 1, "2.0.0", 2⟩ : VersionDiff) ∈
      (splitCached (dispatchUncached (fun _ _ _ => .timeout) []
        [⟨"lodash", "^1.0.0", 1, "2.0.0", 2⟩]).2 [⟨"lodash", "^1.0.0", 1, "2.0.0", 2⟩]).2 := by
  have h := claim_c3_failure_not_cached (fun _ _ _ => .timeout) []
    [⟨"lodash", "^1.0.0", 1, "2.0.0", 2⟩] ⟨"lodash", "^1.0.0", 1, "2.0.0", 2⟩
    (List.mem_singleton_self _) (Or.inl rfl) (by decide) (by decide)
  exact ⟨h.1, h.2.2.1, h.2.2.2 [⟨"lodash", "^1.0.0", 1, "2.0.0", 2⟩] (List.mem_singleton_self _)⟩

/-! ## Control-flow shape of `main` -/

theorem mainDiffs_cases (env : Env) (n : Nat) (ds : List VersionDiff) :
    mainDiffs env n ds = silentRun ∨
      ∃ ds2, mainDiffs env n ds = cacheStage env n ds2 := by
  unfold mainDiffs
  split
  · left; rfl
  · right; exact ⟨_, rfl⟩

theorem mainDetected_cases (env : Env) (mgr cwd command : String) :
    mainDetected env mgr cwd command = silentRun ∨
      ∃ n ds, mainDetected env mgr cwd command = cacheStage env n ds := by
  unfold mainDetected
  dsimp only
  split
  · left; rfl
  · rcases mainDiffs_cases env _ _ with h | ⟨ds2, h⟩
    · left; exact h
    · right; exact ⟨_, ds2, h⟩

theorem mainBash_cases (env : Env) (c0 : String) :
    mainBash env c0 = silentRun ∨ ∃ n ds, mainBash env c0 = cacheStage env n ds := by
  unfold mainBash
  dsimp only
  split
  · left; rfl
  · exact mainDetected_cases env _ _ _

theorem main_cases (env : Env) (input : Option HookInput) :
    main env input = silentRun ∨ ∃ n ds, main env input = cacheStage env n ds := by
  unfold main
  cases input with
  | none => left; rfl
  | some h =>
    dsimp only
    split
    · left; rfl
    · exact mainBash_cases env h.command

/-- C4: an undecodable event exits silently; a tool other than `Bash` exits
silently; and every run ends in one of the two defined outcomes (silent
success or the structured context document) — the embedding of `main` is a
total function of the event and the environment, every external failure
having been converted to an absent/unknown/marker value in `Env`. -/
theorem claim_c4_no_uncaught_exception (env : Env) (input : Option HookInput) :
    (input = none → main env input = silentRun) ∧
    (∀ h : HookInput, input = some h → h.tool_name ≠ "Bash" → main env input = silentRun) ∧
    ((main env input).outcome = .silent ∨ ∃ out, (main env input).outcome = .context out) := by
  refine ⟨?_, ?_, ?_⟩
  · intro h
    subst h
    rfl
  · intro h hin hne
    subst hin
    have hb : (h.tool_name != "Bash") = true := by simpa [bne_iff_ne] using hne
    unfold main
    dsimp only
    rw [hb]
    simp
  · cases ho : (main env input).outcome
    · left; rfl
    · right; exact ⟨_, rfl⟩

/-- C4 witness: the undecodable event and a non-Bash event both exit
silently. -/
theorem claim_c4_witness :
    main envC4 none = silentRun ∧
    main envC4 (some ⟨"Read", "npm install x"⟩) = silentRun := by
  constructor
  · exact (claim_c4_no_uncaught_exception envC4 none).1 rfl
  · exact (claim_c4_no_uncaught_exception envC4 (some ⟨"Read", "npm install x"⟩)).2.1
      ⟨"Read", "npm install x"⟩ rfl (by decide)

/-- C5: storing a text under a key and reading the key back returns exactly
that text; a saved cache reloads to itself; and a key present in the loaded
cache is never dispatched to the research function by `main`. -/
theorem claim_c5_cache_round_trip :
    (∀ (c : Cache) (k t : String), dictGet (dictInsert c k t) k = some t) ∧
    (∀ c : Cache, load_cache (save_cache c) = c) ∧
    (∀ (env : Env) (input : Option HookInput) (pkg : String) (a b : Nat),
      (dictGet (load_cache env.cacheFile) (cache_key pkg a b)).isSome = true →
      (pkg, a, b) ∉ (main env input).trace.researchCalls) := by
  refine ⟨dictGet_dictInsert_self, fun c => rfl, ?_⟩
  intro env input pkg a b hhit hmemcall
  rcases main_cases env input with hm | ⟨n, ds, hm⟩ <;> rw [hm] at hmemcall
  · simp [silentRun] at hmemcall
  · simp only [cacheStage] at hmemcall
    rcases List.mem_map.mp hmemcall with ⟨d, hd, hdeq⟩
    have hnone := splitCached_uncached_not_hit (load_cache env.cacheFile) ds d hd
    obtain ⟨h1, h2, h3⟩ : d.package = pkg ∧ d.installed_major = a ∧ d.latest_major = b := by
      simpa [Prod.ext_iff] using hdeq
    rw [h1, h2, h3] at hnone
    rw [hnone] at hhit
    simp at hhit

/-- C5 witness: concrete round trips, and a concrete run whose cache hit is
not re-dispatched. -/
theorem claim_c5_witness :
    dictGet (dictInsert [] "k" "T") "k" = some "T" ∧
    load_cache (save_cache [("k", "T")]) = [("k", "T")] ∧
    ("lodash", 1, 2) ∉ (main envC5 (some ⟨"Bash", "npm install"⟩)).trace.researchCalls := by
  refine ⟨claim_c5_cache_round_trip.1 [] "k" "T",
    claim_c5_cache_round_trip.2.1 [("k", "T")], ?_⟩
  exact claim_c5_cache_round_trip.2.2 envC5 (some ⟨"Bash", "npm install"⟩)
    "lodash" 1 2 (by decide)

/-- C8 (amended): the cache file is read at most once and written at most
once per invocation; it is written exactly when at least one uncached diff
was dispatched — even when no new entry was added (all research failed),
in which case the loaded content is written back (creating the file if it
was missing). -/
theorem claim_c8_amended_cache_io (env : Env) (input : Option HookInput) :
    (main env input).trace.cacheReads ≤ 1 ∧
    (main env input).trace.cacheWrites.length ≤ 1 ∧
    ((main env input).trace.cacheWrites ≠ [] ↔
      (main env input).trace.researchCalls ≠ []) := by
  rcases main_cases env input with hm | ⟨n, ds, hm⟩ <;> rw [hm]
  · exact ⟨by simp [silentRun], by simp [silentRun], by simp [silentRun]⟩
  · refine ⟨by simp [cacheStage], ?_, ?_⟩
    · simp only [cacheStage]
      split <;> simp
    · simp only [cacheStage]
      by_cases he : (splitCached (load_cache env.cacheFile) ds).2.isEmpty = true
      · rw [if_pos he]
        rw [List.isEmpty_iff] at he
        simp [he]
      · rw [if_neg (by simpa using he)]
        rw [Bool.not_eq_true, List.isEmpty_eq_false] at he
        simp [he]

/-- C8 counterexample: a run whose only research attempt fails writes the
cache file anyway — the written content equals the loaded (empty) cache, so
the write happens although no new entry was added, and it creates a file
that did not exist before. -/
theorem claim_c8_counterexample :
    (main envC8 (some ⟨"Bash", "npm install"⟩)).trace.cacheWrites =
      [load_cache envC8.cacheFile] ∧
    (main envC8 (some ⟨"Bash", "npm install"⟩)).trace.cacheWrites ≠ [] ∧
    load_cache envC8.cacheFile = [] ∧
    envC8.cacheFile = none := by
  refine ⟨?_, ?_, rfl, rfl⟩ <;> decide

/-! ## Pool lemmas -/

theorem poolReach_invariant (research : String → Nat → Nat → RunOutcome)
    (uncached : List VersionDiff) (s : PoolState)
    (h : PoolReach research (poolInit uncached) s) :
    s.running.length ≤ MAX_WORKERS ∧
    ((s.pending ++ s.running).map (research_worker research) ++ s.done).Perm
      (uncached.map (research_worker research)) := by
  induction h with
  | refl =>
    refine ⟨by simp [poolInit, MAX_WORKERS], ?_⟩
    simp [poolInit]
  | tail hreach hstep ih =>
    rcases ih with ⟨ihlen, ihperm⟩
    cases hstep with
    | start d rest running done hlt =>
      refine ⟨by simpa using hlt, ?_⟩
      refine List.Perm.trans ?_ ihperm
      rw [List.perm_iff_count]
      intro x
      simp only [List.map_append, List.count_append, List.map_cons, List.count_cons,
        List.cons_append]
      omega
    | finish pending r1 r2 d done =>
      constructor
      · simp only [List.length_append, List.length_cons] at ihlen ⊢
        omega
      · refine List.Perm.trans ?_ ihperm
        rw [List.perm_iff_count]
        intro x
        simp only [List.map_append, List.count_append, List.map_cons, List.count_cons,
          List.cons_append]
        omega

theorem poolStep_from_idle {research : String → Nat → Nat → RunOutcome}
    {s t : PoolState} (h : PoolStep research s t) (hrun : s.running = []) :
    ∃ d rest, s.pending = d :: rest := by
  cases h with
  | start d rest running done hlt => exact ⟨d, rest, rfl⟩
  | finish pending r1 r2 d done => simp at hrun

theorem pool_terminal (research : String → Nat → Nat → RunOutcome)
    (pend run : List VersionDiff) (done : List ResearchResult)
    (hterm : ∀ t, ¬ PoolStep research ⟨pend, run, done⟩ t) :
    pend = [] ∧ run = [] := by
  have hrun : run = [] := by
    cases run with
    | nil => rfl
    | cons d rs =>
      exact absurd (PoolStep.finish pend [] rs d done) (hterm _)
  subst hrun
  refine ⟨?_, rfl⟩
  cases pend with
  | nil => rfl
  | cons d rest =>
    exact absurd (PoolStep.start d rest [] done (by simp [MAX_WORKERS])) (hterm _)

/-- C9: under the bounded-pool semantics of the dispatcher, every reachable
state has at most `MAX_WORKERS` (10) research calls outstanding, and every
terminal state holds exactly one result per submitted diff — a permutation
of the per-diff worker results, each carrying either the stripped subprocess
output or a parenthesized failure marker.  No finishing step touches any
sibling task, so one task's timeout or failure cancels nothing. -/
theorem claim_c9_research_dispatcher (research : String → Nat → Nat → RunOutcome)
    (uncached : List VersionDiff) (s : PoolState)
    (hreach : PoolReach research (poolInit uncached) s) :
    s.running.length ≤ MAX_WORKERS ∧
    ((∀ t, ¬ PoolStep research s t) →
      s.done.Perm (uncached.map (research_worker research)) ∧
      ∀ r ∈ s.done,
        (∃ out, r.research = pyStrip out) ∨ pyStartswith r.research "(" = true) := by
  obtain ⟨hlen, hperm⟩ := poolReach_invariant research uncached s hreach
  refine ⟨hlen, fun hterm => ?_⟩
  obtain ⟨pend, run, done⟩ := s
  obtain ⟨hp, hr⟩ := pool_terminal research pend run done hterm
  subst hp
  subst hr
  simp only [List.nil_append, List.map_nil] at hperm
  refine ⟨hperm, ?_⟩
  intro r hrdone
  have hmem : r ∈ uncached.map (research_worker research) := hperm.mem_iff.mp hrdone
  rcases List.mem_map.mp hmem with ⟨d, _, hrd⟩
  subst hrd
  cases hout : research d.package d.installed_major d.latest_major with
  | ok sout =>
    left
    exact ⟨sout, by simp [research_worker, spawn_research, hout]⟩
  | timeout =>
    right
    have := spawn_research_failure_marker d.package d.installed_major d.latest_major
      (research d.package d.installed_major d.latest_major) (Or.inl hout)
    exact this
  | error e =>
    right
    have := spawn_research_failure_marker d.package d.installed_major d.latest_major
      (research d.package d.installed_major d.latest_major) (Or.inr ⟨e, hout⟩)
    exact this

/-- C9 witness: a one-task pool run to completion. -/
theorem claim_c9_witness :
    ([research_worker (fun _ _ _ => RunOutcome.timeout) ⟨"p", "1.0", 1, "2.0", 2⟩] :
      List ResearchResult).Perm
      ([(⟨"p", "1.0", 1, "2.0", 2⟩ : VersionDiff)].map
        (research_worker (fun _ _ _ => RunOutcome.timeout))) ∧
    ([] : List VersionDiff).length ≤ MAX_WORKERS := by
  have hreach : PoolReach (fun _ _ _ => RunOutcome.timeout)
      (poolInit [⟨"p", "1.0", 1, "2.0", 2⟩])
      ⟨[], [], [research_worker (fun _ _ _ => RunOutcome.timeout) ⟨"p", "1.0", 1, "2.0", 2⟩]⟩ :=
    Relation.ReflTransGen.tail
      (Relation.ReflTransGen.tail Relation.ReflTransGen.refl
        (PoolStep.start ⟨"p", "1.0", 1, "2.0", 2⟩ [] [] [] (by simp [MAX_WORKERS])))
      (PoolStep.finish [] [] [] ⟨"p", "1.0", 1, "2.0", 2⟩ [])
  have hterm : ∀ t, ¬ PoolStep (fun _ _ _ => RunOutcome.timeout)
      ⟨[], [], [research_worker (fun _ _ _ => RunOutcome.timeout) ⟨"p", "1.0", 1, "2.0", 2⟩]⟩
      t := by
    intro t hstep
    obtain ⟨d, rest, hpend⟩ := poolStep_from_idle hstep rfl
    exact absurd hpend (by simp)
  have h := claim_c9_research_dispatcher (fun _ _ _ => RunOutcome.timeout)
    [⟨"p", "1.0", 1, "2.0", 2⟩] _ hreach
  exact ⟨(h.2 hterm).1, h.1⟩

/-- C7 counterexample: on `npm install lodash --a.b` the code emits the
spurious package name `.b` (the flag regex `--?\w+` consumes `--a.b` only
through `--a`, and the residue `.b` re-enters tokenization), while the
claimed pipeline can only produce `["lodash"]`. -/
theorem claim_c7_counterexample :
    parse_command_packages "npm install lodash --a.b" "npm" = ["lodash", ".b"] ∧
    specOutcomes ["lodash".data, "--a.b".data] = [["lodash".data]] ∧
    ((parse_command_packages "npm install lodash --a.b" "npm").map String.data) ∉
      specOutcomes ["lodash".data, "--a.b".data] := by
  refine ⟨?_, ?_, ?_⟩ <;> decide

/-! ## C7 stage lemmas -/

theorem parse_data (command manager : String) :
    (parse_command_packages command manager).map String.data =
      finalFilter (pySplit (flagSub (stripSubcommand manager command.data))) := by
  unfold parse_command_packages finalFilter
  rw [List.map_filterMap]
  congr 1
  funext pkg
  by_cases hh : pkg.head? == some '-'
  · simp [hh]
  · by_cases he : (stripVersionSpec pkg).isEmpty
    · simp [hh, he]
    · simp [hh, he]

theorem dropWhile_head_nonws (t X : List Char) (ht : t ≠ [])
    (h : ∀ c ∈ t.head?, isPyWs c = false) : (t ++ X).dropWhile isPyWs = t ++ X := by
  cases t with
  | nil => exact absurd rfl ht
  | cons c t2 => simp [List.dropWhile_cons, h c rfl]

theorem flagSub_append_nonws (t s : List Char) (h : ∀ c ∈ t, isPyWs c = false) :
    flagSub (t ++ s) = t ++ flagSub s := by
  induction t with
  | nil => simp
  | cons c t2 ih =>
    have hm : matchFlagAt (c :: (t2 ++ s)) = none := by
      simp [matchFlagAt, h c (List.mem_cons_self c t2)]
    rw [List.cons_append, flagSub_cons_nomatch hm,
      ih (fun x hx => h x (List.mem_cons_of_mem c hx))]
    simp

theorem flagSub_space_head (s : List Char) :
    ∃ s2, flagSub (' ' :: s) = ' ' :: s2 := by
  cases hm : matchFlagAt (' ' :: s) with
  | some rest => exact ⟨flagSub rest, flagSub_cons_match hm⟩
  | none => exact ⟨flagSub s, flagSub_cons_nomatch hm⟩

theorem takeWhile_nonws_token (t X : List Char) (hall : ∀ c ∈ t, isPyWs c = false)
    (hX : ∀ c ∈ X.head?, isPyWs c = true) :
    (t ++ X).takeWhile (fun x => !isPyWs x) = t := by
  rw [takeWhile_append_all X (by intro c hc; simp [hall c hc])]
  rw [takeWhile_head_false (by intro c hc; simp [hX c hc])]
  simp

theorem pySplit_token (t X : List Char) (ht : t ≠ []) (hall : ∀ c ∈ t, isPyWs c = false)
    (hX : ∀ c ∈ X.head?, isPyWs c = true) :
    pySplit (t ++ X) = t :: pySplit X := by
  cases t with
  | nil => exact absurd rfl ht
  | cons c t2 =>
    rw [List.cons_append, pySplit_cons_tok (hall c (List.mem_cons_self c t2))]
    have htok : (c :: (t2 ++ X)).takeWhile (fun x => !isPyWs x) = c :: t2 := by
      have h0 := takeWhile_nonws_token (c :: t2) X hall hX
      simpa using h0
    rw [htok]
    congr 1
    have hdrop : (c :: (t2 ++ X)).drop (c :: t2).length = X := by
      simp only [List.length_cons, List.drop_succ_cons]
      exact List.drop_left t2 X
    rw [hdrop]

theorem dashTail_not_dash (w : Char) (l : List Char) (h : ¬ w = '-') :
    dashTail (w :: l) = w :: l := by
  unfold dashTail
  split
  · rename_i e rest heq
    injection heq with h1 h2
    exact absurd h1 h
  · rfl

theorem gapSp_head_ws (rest : List (List Char)) :
    ∀ c ∈ (gapSp rest).head?, isPyWs c = true := by
  cases rest with
  | nil => intro c hc; simp [gapSp] at hc
  | cons g rest2 =>
    intro c hc
    simp only [gapSp, List.head?_cons, Option.mem_def, Option.some.injEq] at hc
    rw [← hc]
    rfl

theorem gapSp_head_nonword (rest : List (List Char)) :
    ∀ c ∈ (gapSp rest).head?, isWordChar c = false := by
  cases rest with
  | nil => intro c hc; simp [gapSp] at hc
  | cons g rest2 =>
    intro c hc
    simp only [gapSp, List.head?_cons, Option.mem_def, Option.some.injEq] at hc
    rw [← hc]
    rfl

theorem wfFlagTok_not_dash (c : Char) (l : List Char) (h : ¬ c = '-') :
    wfFlagTok (c :: l) = false := by
  unfold wfFlagTok
  split
  · rename_i rest heq
    injection heq with h1 h2
    exact absurd h1 h
  · rfl

theorem wfFlagTok_dash (l : List Char) :
    wfFlagTok ('-' :: l) =
      ((if l.head? == some '-' then l.tail else l) != [] &&
        (if l.head? == some '-' then l.tail else l).all isWordChar) := rfl

theorem flagTail_run (s2 : List Char) (w : Char) (ws2 X : List Char)
    (hdt : dashTail s2 = (w :: ws2) ++ X)
    (hword : ∀ x ∈ w :: ws2, isWordChar x = true)
    (hXw : ∀ x ∈ X.head?, isWordChar x = false) :
    flagTail ('-' :: s2) = some (argTail X) := by
  have hcond : (('-' : Char) == '-') = true := rfl
  simp only [flagTail, hcond, if_true]
  rw [hdt]
  rw [takeWhile_append_all X hword, takeWhile_head_false hXw]
  simp only [List.append_nil, List.isEmpty_cons, Bool.false_eq_true, if_false]
  rw [List.drop_left]

theorem flagTail_wf (t X : List Char) (hwff : wfFlagTok t = true)
    (hXw : ∀ c ∈ X.head?, isWordChar c = false) :
    flagTail (t ++ X) = some (argTail X) := by
  match t with
  | [] => simp [wfFlagTok] at hwff
  | c :: trest =>
    by_cases hc : c = '-'
    · subst hc
      rw [wfFlagTok_dash, Bool.and_eq_true] at hwff
      obtain ⟨hne, hall⟩ := hwff
      by_cases hd : (trest.head? == some '-') = true
      · cases trest with
        | nil => simp at hd
        | cons h0 tl =>
          have h0d : h0 = '-' := by simpa using hd
          subst h0d
          rw [if_pos (by simp)] at hne hall
          simp only [List.tail_cons] at hne hall
          cases tl with
          | nil => simp at hne
          | cons w ws2 =>
            have hword : ∀ x ∈ w :: ws2, isWordChar x = true := by
              intro x hx
              exact List.all_eq_true.mp hall x hx
            have hw : isWordChar w = true := hword w (List.mem_cons_self w ws2)
            have hdt : dashTail (('-' :: w :: ws2) ++ X) = (w :: ws2) ++ X := by
              simp only [List.cons_append]
              show (if isWordChar w = true then w :: (ws2 ++ X) else
                '-' :: w :: (ws2 ++ X)) = (w :: ws2) ++ X
              rw [if_pos hw]
              simp
            have hgoal := flagTail_run (('-' :: w :: ws2) ++ X) w ws2 X hdt hword hXw
            simpa using hgoal
      · rw [if_neg hd] at hne hall
        cases trest with
        | nil => simp at hne
        | cons w ws2 =>
          have hword : ∀ x ∈ w :: ws2, isWordChar x = true := by
            intro x hx
            exact List.all_eq_true.mp hall x hx
          have hw : isWordChar w = true := hword w (List.mem_cons_self w ws2)
          have hwd : ¬ w = '-' := by
            intro hww
            rw [hww] at hw
            exact absurd hw (by decide)
          have hdt : dashTail ((w :: ws2) ++ X) = (w :: ws2) ++ X := by
            simp only [List.cons_append]
            rw [dashTail_not_dash w (ws2 ++ X) hwd]
          have hgoal := flagTail_run ((w :: ws2) ++ X) w ws2 X hdt hword hXw
          simpa using hgoal
    · rw [wfFlagTok_not_dash c trest hc] at hwff
      exact absurd hwff (by simp)

theorem argTail_gap (rest : List (List Char))
    (hrest : ∀ g ∈ rest.head?, g ≠ [] ∧ ∀ c ∈ g, isPyWs c = false) :
    argTail (gapSp rest) =
      (match rest with | [] => ([] : List Char) | _ :: rest2 => gapSp rest2) := by
  cases rest with
  | nil => rfl
  | cons g rest2 =>
    obtain ⟨hg, hgall⟩ := hrest g rfl
    show argTail (' ' :: (g ++ gapSp rest2)) = gapSp rest2
    have hcond : isPyWs ' ' = true := rfl
    simp only [argTail, hcond, if_true]
    rw [List.dropWhile_cons]
    simp only [hcond, if_true]
    rw [dropWhile_head_nonws g (gapSp rest2) hg
      (fun c hc => hgall c (List.mem_of_mem_head? hc))]
    rw [takeWhile_nonws_token g (gapSp rest2) hgall (gapSp_head_ws rest2)]
    cases g with
    | nil => exact absurd rfl hg
    | cons gc gcs =>
      simp only [List.isEmpty_cons, Bool.false_eq_true, if_false]
      rw [List.drop_left]

theorem matchFlagAt_gap_flag (t : List Char) (rest : List (List Char))
    (hwff : wfFlagTok t = true) (hnws : ∀ c ∈ t, isPyWs c = false) :
    matchFlagAt (' ' :: (t ++ gapSp rest)) = some (argTail (gapSp rest)) := by
  have ht : t ≠ [] := by
    intro h
    rw [h] at hwff
    simp [wfFlagTok] at hwff
  have hcond : isPyWs ' ' = true := rfl
  simp only [matchFlagAt, hcond, if_true]
  rw [dropWhile_head_nonws t (gapSp rest) ht
    (fun c hc => hnws c (List.mem_of_mem_head? hc))]
  exact flagTail_wf t (gapSp rest) hwff (gapSp_head_nonword rest)

theorem matchFlagAt_gap_bare (t X : List Char) (ht : t ≠ [])
    (hhead : t.head? ≠ some '-') (hall : ∀ c ∈ t, isPyWs c = false) :
    matchFlagAt (' ' :: (t ++ X)) = none := by
  cases t with
  | nil => exact absurd rfl ht
  | cons c t2 =>
    have hcw : isPyWs c = false := hall c (List.mem_cons_self c t2)
    have hcd : (c == '-') = false := by
      have : c ≠ '-' := by
        intro h
        exact hhead (by rw [h]; rfl)
      simpa using this
    have hcond : isPyWs ' ' = true := rfl
    simp only [matchFlagAt, hcond, if_true]
    rw [List.cons_append, List.dropWhile_cons]
    simp only [hcw, Bool.false_eq_true, if_false]
    simp only [flagTail, hcd, Bool.false_eq_true, if_false]

/-! ## C7 token-level composition -/

theorem wfTok_parts {t : List Char} (h : wfTok t = true) :
    t ≠ [] ∧ (∀ c ∈ t, isPyWs c = false) ∧
      (t.head? ≠ some '-' ∨ wfFlagTok t = true) := by
  unfold wfTok at h
  rw [Bool.and_eq_true, Bool.and_eq_true] at h
  obtain ⟨⟨h1, h2⟩, h3⟩ := h
  refine ⟨by simpa using h1, ?_, ?_⟩
  · intro c hc
    have := List.all_eq_true.mp h2 c hc
    simpa using this
  · rw [Bool.or_eq_true] at h3
    rcases h3 with h3 | h3
    · left
      simpa using h3
    · right
      exact h3

theorem flagSub_gap_head_ws (rest : List (List Char)) :
    ∀ c ∈ (flagSub (gapSp rest)).head?, isPyWs c = true := by
  cases rest with
  | nil => intro c hc; simp [gapSp, flagSub_nil] at hc
  | cons g rest2 =>
    intro c hc
    obtain ⟨s2, hs2⟩ := flagSub_space_head (g ++ gapSp rest2)
    rw [show gapSp (g :: rest2) = ' ' :: (g ++ gapSp rest2) from rfl, hs2] at hc
    simp only [List.head?_cons, Option.mem_def, Option.some.injEq] at hc
    rw [← hc]
    rfl

theorem stripFlagsTok_flag_nil (t : List Char) (h : (t.head? == some '-') = true) :
    stripFlagsTok [t] = [] := by
  conv_lhs => unfold stripFlagsTok
  rw [if_pos h]

theorem stripFlagsTok_flag_cons (t g : List Char) (rest2 : List (List Char))
    (h : (t.head? == some '-') = true) :
    stripFlagsTok (t :: g :: rest2) = stripFlagsTok rest2 := by
  conv_lhs => unfold stripFlagsTok
  rw [if_pos h]

theorem stripFlagsTok_bare (t : List Char) (rest : List (List Char))
    (h : (t.head? == some '-') = false) :
    stripFlagsTok (t :: rest) = t :: stripFlagsTok rest := by
  cases rest with
  | nil =>
    conv_lhs => unfold stripFlagsTok
    rw [if_neg (by simp [h])]
    conv_rhs => unfold stripFlagsTok
  | cons g rest2 =>
    conv_lhs => unfold stripFlagsTok
    rw [if_neg (by simp [h])]

theorem specOutcomes_nil_eq : specOutcomes [] = [[]] := by
  unfold specOutcomes
  rfl

theorem specOutcomes_flag (t : List Char) (rest : List (List Char))
    (h : (t.head? == some '-') = true) :
    specOutcomes (t :: rest) = specOutcomes rest ++
      (match rest with
       | a :: rest2 => if a.head? == some '-' then [] else specOutcomes rest2
       | [] => []) := by
  cases rest with
  | nil =>
    conv_lhs => unfold specOutcomes
    rw [if_pos h, specOutcomes_nil_eq]
    rfl
  | cons a rest2 =>
    conv_lhs => unfold specOutcomes
    rw [if_pos h]

theorem specOutcomes_bare (t : List Char) (rest : List (List Char))
    (h : (t.head? == some '-') = false) :
    specOutcomes (t :: rest) = (specOutcomes rest).map
      (fun out => if (specBareName t).isEmpty then out else specBareName t :: out) := by
  cases rest with
  | nil =>
    conv_lhs => unfold specOutcomes
    rw [if_neg (by simp [h]), specOutcomes_nil_eq]
  | cons a rest2 =>
    conv_lhs => unfold specOutcomes
    rw [if_neg (by simp [h])]

theorem finalFilter_cons_flag (t : List Char) (toks : List (List Char))
    (h : (t.head? == some '-') = true) :
    finalFilter (t :: toks) = finalFilter toks := by
  unfold finalFilter
  apply List.filterMap_cons_none
  simp [h]

theorem finalFilter_cons_empty (t : List Char) (toks : List (List Char))
    (h1 : (t.head? == some '-') = false) (h2 : (stripVersionSpec t).isEmpty = true) :
    finalFilter (t :: toks) = finalFilter toks := by
  unfold finalFilter
  apply List.filterMap_cons_none
  simp [h1, h2]

theorem finalFilter_cons_name (t : List Char) (toks : List (List Char))
    (h1 : (t.head? == some '-') = false) (h2 : (stripVersionSpec t).isEmpty = false) :
    finalFilter (t :: toks) = stripVersionSpec t :: finalFilter toks := by
  unfold finalFilter
  apply List.filterMap_cons_some
  simp [h1, h2]

theorem specBareName_eq (t : List Char) : specBareName t = stripVersionSpec t := rfl

theorem codeTokens_gap : ∀ (n : Nat) (ts : List (List Char)), ts.length ≤ n →
    (∀ t ∈ ts, wfTok t = true) →
    pySplit (flagSub (gapSp ts)) = stripFlagsTok ts := by
  intro n
  induction n with
  | zero =>
    intro ts hlen _
    have h0 : ts = [] := List.eq_nil_of_length_eq_zero (Nat.le_zero.mp hlen)
    subst h0
    rfl
  | succ m ih =>
    intro ts hlen hwf
    cases ts with
    | nil => rfl
    | cons t rest =>
      obtain ⟨ht, hallt, hkind⟩ := wfTok_parts (hwf t (List.mem_cons_self t rest))
      have hrest : ∀ g ∈ rest.head?, g ≠ [] ∧ ∀ c ∈ g, isPyWs c = false := by
        intro g hg
        have hgmem : g ∈ rest := List.mem_of_mem_head? hg
        obtain ⟨h1, h2, _⟩ := wfTok_parts (hwf g (List.mem_cons_of_mem t hgmem))
        exact ⟨h1, h2⟩
      simp only [List.length_cons] at hlen
      by_cases hflag : t.head? == some '-'
      · have hwff : wfFlagTok t = true := by
          rcases hkind with hk | hk
          · exact absurd (by simpa using hflag) hk
          · exact hk
        have hm := matchFlagAt_gap_flag t rest hwff hallt
        rw [show gapSp (t :: rest) = ' ' :: (t ++ gapSp rest) from rfl]
        rw [flagSub_cons_match hm]
        rw [argTail_gap rest hrest]
        rw [pySplit_cons_ws (show isPyWs ' ' = true from rfl)]
        cases rest with
        | nil =>
          rw [stripFlagsTok_flag_nil t hflag]
          rfl
        | cons g rest2 =>
          have hr2 : pySplit (flagSub (gapSp rest2)) = stripFlagsTok rest2 := by
            apply ih rest2 (by simp only [List.length_cons] at hlen; omega)
            intro x hx
            exact hwf x (List.mem_cons_of_mem t (List.mem_cons_of_mem g hx))
          rw [hr2, stripFlagsTok_flag_cons t g rest2 hflag]
      · have hm := matchFlagAt_gap_bare t (gapSp rest) ht (by simpa using hflag) hallt
        rw [show gapSp (t :: rest) = ' ' :: (t ++ gapSp rest) from rfl]
        rw [flagSub_cons_nomatch hm]
        rw [pySplit_cons_ws (show isPyWs ' ' = true from rfl)]
        rw [flagSub_append_nonws t _ hallt]
        rw [pySplit_token t _ ht hallt (flagSub_gap_head_ws rest)]
        rw [ih rest (by omega) (fun x hx => hwf x (List.mem_cons_of_mem t hx))]
        rw [stripFlagsTok_bare t rest (by simpa using hflag)]

theorem codeTokens_main (ts : List (List Char)) (hwf : ∀ t ∈ ts, wfTok t = true) :
    pySplit (flagSub (intercalSp ts)) = codeTokensModel ts := by
  cases ts with
  | nil => rfl
  | cons t rest =>
    obtain ⟨ht, hallt, _⟩ := wfTok_parts (hwf t (List.mem_cons_self t rest))
    rw [show intercalSp (t :: rest) = t ++ gapSp rest from rfl]
    rw [flagSub_append_nonws t _ hallt]
    rw [pySplit_token t _ ht hallt (flagSub_gap_head_ws rest)]
    rw [codeTokens_gap rest.length rest (Nat.le_refl _)
      (fun x hx => hwf x (List.mem_cons_of_mem t hx))]
    rfl

/-! ## C7 membership in the claim-side outcome set -/


theorem finalFilter_gap_mem : ∀ (n : Nat) (ts : List (List Char)), ts.length ≤ n →
    finalFilter (stripFlagsTok ts) ∈ specOutcomes ts := by
  intro n
  induction n with
  | zero =>
    intro ts hlen
    have h0 : ts = [] := List.eq_nil_of_length_eq_zero (Nat.le_zero.mp hlen)
    subst h0
    exact List.mem_singleton_self _
  | succ m ih =>
    intro ts hlen
    cases ts with
    | nil => exact List.mem_singleton_self _
    | cons t rest =>
      simp only [List.length_cons] at hlen
      by_cases hflag : (t.head? == some '-') = true
      · rw [specOutcomes_flag t rest hflag]
        cases rest with
        | nil =>
          rw [stripFlagsTok_flag_nil t hflag]
          exact List.mem_append_left _ (List.mem_singleton_self _)
        | cons g rest2 =>
          simp only [List.length_cons] at hlen
          rw [stripFlagsTok_flag_cons t g rest2 hflag]
          by_cases hg : (g.head? == some '-') = true
          · apply List.mem_append_left
            rw [specOutcomes_flag g rest2 hg]
            exact List.mem_append_left _ (ih rest2 (by omega))
          · apply List.mem_append_right
            rw [show (match g :: rest2 with
                | a :: r2 => if a.head? == some '-' then [] else specOutcomes r2
                | [] => ([] : List (List (List Char)))) = specOutcomes rest2 from by
              simp [hg]]
            exact ih rest2 (by omega)
      · have hflag2 : (t.head? == some '-') = false := by simpa using hflag
        rw [stripFlagsTok_bare t rest hflag2, specOutcomes_bare t rest hflag2]
        have hm := ih rest (by omega)
        by_cases he : (stripVersionSpec t).isEmpty = true
        · rw [finalFilter_cons_empty t _ hflag2 he]
          have hmem := List.mem_map_of_mem
            (fun out => if (specBareName t).isEmpty then out
              else specBareName t :: out) hm
          dsimp only [] at hmem
          rw [if_pos (show (specBareName t).isEmpty = true from he)] at hmem
          exact hmem
        · have he2 : (stripVersionSpec t).isEmpty = false := by simpa using he
          rw [finalFilter_cons_name t _ hflag2 he2]
          have hmem := List.mem_map_of_mem
            (fun out => if (specBareName t).isEmpty then out
              else specBareName t :: out) hm
          dsimp only [] at hmem
          rw [if_neg (show ¬(specBareName t).isEmpty = true from by
            rw [specBareName_eq, he2]; simp)] at hmem
          exact hmem

theorem finalFilter_head_mem (ts : List (List Char)) :
    finalFilter (codeTokensModel ts) ∈ specOutcomes ts := by
  cases ts with
  | nil => exact List.mem_singleton_self _
  | cons t rest =>
    show finalFilter (t :: stripFlagsTok rest) ∈ specOutcomes (t :: rest)
    by_cases hflag : (t.head? == some '-') = true
    · rw [finalFilter_cons_flag t _ hflag, specOutcomes_flag t rest hflag]
      exact List.mem_append_left _ (finalFilter_gap_mem rest.length rest (Nat.le_refl _))
    · have hflag2 : (t.head? == some '-') = false := by simpa using hflag
      rw [specOutcomes_bare t rest hflag2]
      have hm := finalFilter_gap_mem rest.length rest (Nat.le_refl _)
      by_cases he : (stripVersionSpec t).isEmpty = true
      · rw [finalFilter_cons_empty t _ hflag2 he]
        have hmem := List.mem_map_of_mem
          (fun out => if (specBareName t).isEmpty then out
            else specBareName t :: out) hm
        dsimp only [] at hmem
        rw [if_pos (show (specBareName t).isEmpty = true from he)] at hmem
        exact hmem
      · have he2 : (stripVersionSpec t).isEmpty = false := by simpa using he
        rw [finalFilter_cons_name t _ hflag2 he2]
        have hmem := List.mem_map_of_mem
          (fun out => if (specBareName t).isEmpty then out
            else specBareName t :: out) hm
        dsimp only [] at hmem
        rw [if_neg (show ¬(specBareName t).isEmpty = true from by
          rw [specBareName_eq, he2]; simp)] at hmem
        exact hmem

/-- C7 (amended): for every recognized install command whose remainder after
the subcommand prefix is a single-space join of well-formed tokens — flag
tokens being a dash or double dash followed only of word characters —
`parse_command_packages` produces one of the outputs admitted by the claimed
pipeline: each flag token stripped together with at most one following bare
argument (or merely discarded), remaining flag-marker tokens discarded, and
each surviving token contributing its nonempty bare package name, in order.
(Flag tokens containing other characters, e.g. `--save-dev` or `--a.b`, are
stripped only through their leading word run and the residue re-enters
tokenization — see the counterexample.) -/
theorem claim_c7_parse_command_packages (command manager : String)
    (ts : List (List Char))
    (hstrip : stripSubcommand manager command.data = intercalSp ts)
    (hwf : ∀ t ∈ ts, wfTok t = true) :
    ((parse_command_packages command manager).map String.data) ∈ specOutcomes ts := by
  rw [parse_data, hstrip, codeTokens_main ts hwf]
  exact finalFilter_head_mem ts

/-- C7 witness: a concrete npm command with a flag that absorbs one
following argument. -/
theorem claim_c7_witness :
    ((parse_command_packages "npm install react --save lodash@2" "npm").map
      String.data) ∈
      specOutcomes ["react".data, "--save".data, "lodash@2".data] := by
  exact claim_c7_parse_command_packages "npm install react --save lodash@2" "npm"
    ["react".data, "--save".data, "lodash@2".data] (by decide) (by decide)

end CheckPackageVersions
